import Mathlib

/-!
Verification of the family-tree data model and layout algorithm
(`FamilyModel` and `MainWindow.auto_layout` from `main.py`).

The store is the in-memory list of person records (`self.people`).
Python dict records become a `Person` structure; the JSON fields
`padres`/`hijos` are lists of integer ids.  In-place mutation of a
record found by `get` becomes `modifyFirst` (the first record whose
id matches, exactly as `get` aliases the first matching dict).
Numeric coordinates are modelled as rationals; the float arithmetic
performed by the layout (`(i - (n-1)/2) * 200`, `lvl * 200`) is exact
on these half-integer values, so ℚ is a faithful model of it.
-/

structure Person where
  id : Int
  nombre : String
  fecha_nacimiento : String
  padres : List Int
  hijos : List Int
  descripcion : String
  x : Option ℚ
  y : Option ℚ
  deriving DecidableEq, Repr

abbrev Store := List Person

/-- `FamilyModel.get` (named `getPerson` here): first record whose `id` equals `i`, else `none`. -/
def getPerson : Store → Int → Option Person
  | [], _ => none
  | p :: ps, i => if p.id = i then some p else getPerson ps i

/-- Maximum of the ids of the records, `0` when the store is empty
(`max((p.get("id", 0) for p in self.people), default=0)`). -/
def idsMax : Store → Int
  | [] => 0
  | p :: ps => ps.foldl (fun m q => max m q.id) p.id

/-- `FamilyModel.generate_id`. -/
def generate_id (s : Store) : Int := idsMax s + 1

/-- Replace the first record whose id is `i` by its image under `f`;
if no record matches, the store is unchanged (Python: `p = self.get(i)`
followed by in-place mutation of `p`, skipped when `p` is `None`). -/
def modifyFirst (i : Int) (f : Person → Person) : Store → Store
  | [] => []
  | p :: ps => if p.id = i then f p :: ps else p :: modifyFirst i f ps

/-- `if new_id not in p["hijos"]: p["hijos"].append(new_id)`. -/
def addChildRef (n : Int) (r : Person) : Person :=
  if n ∈ r.hijos then r else { r with hijos := r.hijos ++ [n] }

/-- `if new_id not in c["padres"]: c["padres"].append(new_id)`. -/
def addParentRef (n : Int) (r : Person) : Person :=
  if n ∈ r.padres then r else { r with padres := r.padres ++ [n] }

/-- `if i in parent["hijos"]: parent["hijos"].remove(i)` (first occurrence). -/
def delChildRef (i : Int) (r : Person) : Person :=
  if i ∈ r.hijos then { r with hijos := r.hijos.erase i } else r

/-- `if i in child["padres"]: child["padres"].remove(i)` (first occurrence). -/
def delParentRef (i : Int) (r : Person) : Person :=
  if i ∈ r.padres then { r with padres := r.padres.erase i } else r

/-- The `padres` list of the record `get` finds for `i` (`[]` if absent). -/
def padresOf (s : Store) (i : Int) : List Int :=
  ((getPerson s i).map Person.padres).getD []

/-- The `hijos` list of the record `get` finds for `i` (`[]` if absent). -/
def hijosOf (s : Store) (i : Int) : List Int :=
  ((getPerson s i).map Person.hijos).getD []

/-- `FamilyModel.add_person`.  The new record is appended, then the two
reciprocal fix-up loops run; the second loop iterates over the new
record's `hijos` list as it stands after the first loop (in Python the
loop ranges over the live `person["hijos"]` object). -/
def addPerson (s : Store) (name dob desc : String)
    (parents children : Option (List Int)) : Store × Int :=
  let new_id := generate_id s
  let person : Person :=
    { id := new_id, nombre := name, fecha_nacimiento := dob,
      padres := parents.getD [], hijos := children.getD [],
      descripcion := desc, x := none, y := none }
  let s1 := s ++ [person]
  let s2 := person.padres.foldl (fun st pid => modifyFirst pid (addChildRef new_id) st) s1
  let s3 := (hijosOf s2 new_id).foldl (fun st cid => modifyFirst cid (addParentRef new_id) st) s2
  (s3, new_id)

/-- The scalar-field part of `update_person`: a field is overwritten only
when the keyword was supplied with a non-`None` value (`some (some v)`). -/
def scalarF (nombre fecha descripcion : Option (Option String)) (r : Person) : Person :=
  { r with
    nombre := match nombre with | some (some v) => v | _ => r.nombre,
    fecha_nacimiento := match fecha with | some (some v) => v | _ => r.fecha_nacimiento,
    descripcion := match descripcion with | some (some v) => v | _ => r.descripcion }

/-- `p["padres"] = new_parents`. -/
def setPadresF (newP : List Int) (r : Person) : Person := { r with padres := newP }

/-- `p["hijos"] = new_children`. -/
def setHijosF (newH : List Int) (r : Person) : Person := { r with hijos := newH }

/-- The `padres` branch of `update_person`: remove the back-reference from
former parents not kept, set the record's `padres` to the new list, then
add the back-reference to every (existing) new parent. -/
def replacePadres (s : Store) (i : Int) (newP : List Int) : Store :=
  let oldP := padresOf s i
  let sA := oldP.foldl (fun st o => if o ∈ newP then st else modifyFirst o (delChildRef i) st) s
  let sB := modifyFirst i (setPadresF newP) sA
  newP.foldl (fun st q => modifyFirst q (addChildRef i) st) sB

/-- The `hijos` branch of `update_person`, mirror image of `replacePadres`. -/
def replaceHijos (s : Store) (i : Int) (newH : List Int) : Store :=
  let oldH := hijosOf s i
  let sA := oldH.foldl (fun st o => if o ∈ newH then st else modifyFirst o (delParentRef i) st) s
  let sB := modifyFirst i (setHijosF newH) sA
  newH.foldl (fun st q => modifyFirst q (addParentRef i) st) sB

/-- `FamilyModel.update_person`.  A keyword argument is `none` when
omitted, `some none` when passed explicitly as `None`, `some (some v)`
when passed with value `v`; the Python guard
`k in kwargs and kwargs[k] is not None` only fires in the last case.
The `hijos` branch reads the record's current `hijos` list, i.e. the
one left by the `padres` branch. -/
def updatePerson (s : Store) (i : Int)
    (nombre fecha descripcion : Option (Option String))
    (padres hijos : Option (Option (List Int))) : Store × Bool :=
  match getPerson s i with
  | none => (s, false)
  | some _ =>
    let s1 := modifyFirst i (scalarF nombre fecha descripcion) s
    let s2 := match padres with
      | some (some newP) => replacePadres s1 i newP
      | _ => s1
    let s3 := match hijos with
      | some (some newH) => replaceHijos s2 i newH
      | _ => s2
    (s3, true)

/-- The per-record reference removal of `delete_person`. -/
def delFromLists (i : Int) (o : Person) : Person :=
  delChildRef i (delParentRef i o)

/-- `FamilyModel.delete_person`: remove the first occurrence of `i` from
every record's `padres` and `hijos`, then drop every record whose id is
`i`. -/
def deletePerson (s : Store) (i : Int) : Store × Bool :=
  match getPerson s i with
  | none => (s, false)
  | some _ =>
    let s1 := s.map (delFromLists i)
    (s1.filter (fun p => p.id ≠ i), true)

/-! ## Invariants of the data model -/

/-- Some record currently in the store has id `i`. -/
def HasId (s : Store) (i : Int) : Prop := ∃ p ∈ s, p.id = i

/-- Invariant I1, bidirectional consistency: for every pair of records
both present, `b.id ∈ a.hijos ↔ a.id ∈ b.padres`. -/
def BidirConsistent (s : Store) : Prop :=
  ∀ a ∈ s, ∀ b ∈ s, (b.id ∈ a.hijos ↔ a.id ∈ b.padres)

/-- Invariant I2, no dangling references: every id in any `padres` or
`hijos` list belongs to a record currently in the store. -/
def NoDangling (s : Store) : Prop :=
  ∀ a ∈ s, (∀ i ∈ a.padres, HasId s i) ∧ (∀ i ∈ a.hijos, HasId s i)

/-- The record ids are pairwise distinct. -/
def UniqueIds (s : Store) : Prop := (s.map Person.id).Nodup

/-- Every relationship list is duplicate-free. -/
def NodupLists (s : Store) : Prop :=
  ∀ a ∈ s, a.padres.Nodup ∧ a.hijos.Nodup

/-- A relationship argument is valid when its ids exist and it has no
duplicates (the spec: relationship sets are duplicate-free and expected
to be validated by the caller). -/
def ValidArg (s : Store) (l : List Int) : Prop :=
  (∀ x ∈ l, HasId s x) ∧ l.Nodup

instance (s : Store) (i : Int) : Decidable (HasId s i) :=
  decidable_of_iff (∃ p ∈ s, p.id = i) Iff.rfl

instance (s : Store) : Decidable (BidirConsistent s) :=
  decidable_of_iff (∀ a ∈ s, ∀ b ∈ s, (b.id ∈ a.hijos ↔ a.id ∈ b.padres)) Iff.rfl

instance (s : Store) : Decidable (NoDangling s) :=
  decidable_of_iff (∀ a ∈ s, (∀ i ∈ a.padres, HasId s i) ∧ (∀ i ∈ a.hijos, HasId s i)) Iff.rfl

instance (s : Store) : Decidable (UniqueIds s) :=
  decidable_of_iff ((s.map Person.id).Nodup) Iff.rfl

instance (s : Store) : Decidable (NodupLists s) :=
  decidable_of_iff (∀ a ∈ s, a.padres.Nodup ∧ a.hijos.Nodup) Iff.rfl

instance (s : Store) (l : List Int) : Decidable (ValidArg s l) :=
  decidable_of_iff ((∀ x ∈ l, HasId s x) ∧ l.Nodup) Iff.rfl

/-! ## The auto-layout algorithm -/

/-- `id_to_children`: a dict comprehension keyed by id, so on duplicate
ids the last record wins; missing keys default to `[]`. -/
def childrenMap (s : Store) (i : Int) : List Int :=
  (((s.reverse.find? (fun p => p.id == i)).map Person.hijos).getD [])

/-- The root set: ids of records with empty `padres`, or every id when
there is none. -/
def rootsOf (s : Store) : List Int :=
  let r := (s.filter (fun p => p.padres.isEmpty)).map Person.id
  if r.isEmpty then s.map Person.id else r

/-- Inner loop of one BFS step: append each child that is neither
visited nor already collected. -/
def addChildrenBFS (visited : List Int) (next : List Int) (cs : List Int) : List Int :=
  cs.foldl (fun nx c => if c ∉ visited ∧ c ∉ nx then nx ++ [c] else nx) next

/-- One BFS step over `current`: mark each member visited, then scan its
children against the visited set as it stands at that moment. -/
def bfsStep (co : Int → List Int) (vn : List Int × List Int)
    (current : List Int) : List Int × List Int :=
  current.foldl (fun st nid =>
    let v := st.1.insert nid
    (v, addChildrenBFS v st.2 (co nid))) vn

/-- The `while current:` loop, recorded level by level.  `fuel` bounds
the number of iterations; every concrete run below terminates well
within the generous bound `layoutFuel`, and `bfsLoop_fuel_stable` shows
the output no longer changes once the loop has ended within the bound. -/
def bfsLoop (co : Int → List Int) : Nat → List Int → List Int → List (List Int)
  | 0, _, _ => []
  | fuel + 1, visited, current =>
    if current.isEmpty then []
    else
      let vn := bfsStep co (visited, []) current
      current :: bfsLoop co fuel vn.1 vn.2

/-- Iteration bound for `bfsLoop`: the loop visits at most every id and
every child entry, and stalls at most one extra step per visit. -/
def layoutFuel (s : Store) : Nat :=
  2 * (s.length + (s.map (fun p => p.hijos.length)).sum) + 2

/-- The levels computed by `MainWindow.auto_layout`. -/
def autoLayoutLevels (s : Store) : List (List Int) :=
  bfsLoop (childrenMap s) (layoutFuel s) [] (rootsOf s)

/-- `x = (i - (n - 1) / 2) * x_gap` with `x_gap = 200`. -/
def xCoord (n i : Nat) : ℚ := ((i : ℚ) - ((n : ℚ) - 1) / 2) * 200

/-- The `setPos` calls issued for one level: the i-th id of the level is
placed at `(xCoord n i, lvl * 200)`, skipping ids without a node. -/
def levelCalls (nodeIds : List Int) (lvl : Nat) (ids : List Int) : List (Int × ℚ × ℚ) :=
  (ids.enum.filter (fun p => p.2 ∈ nodeIds)).map
    (fun p => (p.2, xCoord ids.length p.1, (lvl : ℚ) * 200))

/-- All `setPos` calls of the position-assignment loop, in order. -/
def layoutCalls (nodeIds : List Int) (levels : List (List Int)) : List (Int × ℚ × ℚ) :=
  (levels.enum.map (fun p => levelCalls nodeIds p.1 p.2)).flatten

/-- The `setPos` calls issued by `auto_layout` on store `s` (the node
map holds one node per record id). -/
def autoLayout (s : Store) : List (Int × ℚ × ℚ) :=
  layoutCalls (s.map Person.id) (autoLayoutLevels s)

/-- The final position of a node: the last `setPos` call that hit it. -/
def lastPosOf (calls : List (Int × ℚ × ℚ)) (i : Int) : Option (ℚ × ℚ) :=
  ((calls.filter (fun c => c.1 = i)).getLast?).map Prod.snd

/-! ## Basic lemmas about `getPerson`, `modifyFirst` and the fix-up folds -/

theorem get_some_id {s : Store} {i : Int} {p : Person} (h : getPerson s i = some p) : p.id = i := by
  induction s with
  | nil => simp [getPerson] at h
  | cons q t ih =>
    by_cases hq : q.id = i
    · simp [getPerson, hq] at h
      subst h
      exact hq
    · simp [getPerson, hq] at h
      exact ih h

theorem get_mem {s : Store} {i : Int} {p : Person} (h : getPerson s i = some p) : p ∈ s := by
  induction s with
  | nil => simp [getPerson] at h
  | cons q t ih =>
    by_cases hq : q.id = i
    · simp [getPerson, hq] at h
      simp [h]
    · simp [getPerson, hq] at h
      exact List.mem_cons_of_mem q (ih h)

theorem get_eq_none_iff {s : Store} {i : Int} :
    getPerson s i = none ↔ ∀ p ∈ s, p.id ≠ i := by
  induction s with
  | nil => simp [getPerson]
  | cons q t ih =>
    by_cases hq : q.id = i
    · simp [getPerson, hq]
    · simp [getPerson, hq, ih]

theorem hasId_iff_get {s : Store} {i : Int} :
    HasId s i ↔ ∃ p, getPerson s i = some p := by
  constructor
  · rintro ⟨p, hp, hid⟩
    cases hg : getPerson s i with
    | none => exact absurd hid (get_eq_none_iff.mp hg p hp)
    | some q => exact ⟨q, rfl⟩
  · rintro ⟨p, hp⟩
    exact ⟨p, get_mem hp, get_some_id hp⟩

theorem get_of_uniqueIds {s : Store} {p : Person} (hu : UniqueIds s) (hp : p ∈ s) :
    getPerson s p.id = some p := by
  induction s with
  | nil => cases hp
  | cons q t ih =>
    rcases List.mem_cons.mp hp with rfl | hp'
    · simp [getPerson]
    · have hq : q.id ≠ p.id := by
        intro he
        have : q.id ∈ t.map Person.id := he ▸ List.mem_map_of_mem Person.id hp'
        exact (List.nodup_cons.mp hu).1 this
      simp [getPerson, hq]
      exact ih (List.nodup_cons.mp hu).2 hp'

theorem get_append_left {s t : Store} {i : Int} {p : Person} (h : getPerson s i = some p) :
    getPerson (s ++ t) i = some p := by
  induction s with
  | nil => simp [getPerson] at h
  | cons q u ih =>
    by_cases hq : q.id = i
    · simp [getPerson, hq] at h ⊢
      exact h
    · simp [getPerson, hq] at h ⊢
      exact ih h

theorem get_append_right {s t : Store} {i : Int} (h : getPerson s i = none) :
    getPerson (s ++ t) i = getPerson t i := by
  induction s with
  | nil => simp
  | cons q u ih =>
    by_cases hq : q.id = i
    · simp [getPerson, hq] at h
    · simp [getPerson, hq] at h ⊢
      exact ih h

theorem modifyFirst_map_id {i : Int} {f : Person → Person}
    (hf : ∀ r, (f r).id = r.id) (s : Store) :
    (modifyFirst i f s).map Person.id = s.map Person.id := by
  induction s with
  | nil => rfl
  | cons q t ih =>
    by_cases hq : q.id = i
    · simp [modifyFirst, hq, hf]
    · simp [modifyFirst, hq, ih]

theorem hasId_modifyFirst {i j : Int} {f : Person → Person}
    (hf : ∀ r, (f r).id = r.id) (s : Store) :
    HasId (modifyFirst i f s) j ↔ HasId s j := by
  unfold HasId
  constructor
  · rintro ⟨p, hp, rfl⟩
    have : p.id ∈ (modifyFirst i f s).map Person.id := List.mem_map_of_mem Person.id hp
    rw [modifyFirst_map_id hf] at this
    rcases List.mem_map.mp this with ⟨q, hq, hid⟩
    exact ⟨q, hq, hid⟩
  · rintro ⟨p, hp, rfl⟩
    have h1 : p.id ∈ (modifyFirst i f s).map Person.id := by
      rw [modifyFirst_map_id hf]
      exact List.mem_map_of_mem Person.id hp
    rcases List.mem_map.mp h1 with ⟨q, hq, hid⟩
    exact ⟨q, hq, hid⟩

theorem get_modifyFirst_self {i : Int} {f : Person → Person}
    (hf : ∀ r, (f r).id = r.id) (s : Store) :
    getPerson (modifyFirst i f s) i = (getPerson s i).map f := by
  induction s with
  | nil => rfl
  | cons q t ih =>
    by_cases hq : q.id = i
    · have : (f q).id = i := by rw [hf q, hq]
      simp [modifyFirst, getPerson, hq, this]
    · have : (q.id = i) = False := by simp [hq]
      simp [modifyFirst, getPerson, hq, ih]

theorem get_modifyFirst_ne {i j : Int} {f : Person → Person}
    (hf : ∀ r, (f r).id = r.id) (hne : j ≠ i) (s : Store) :
    getPerson (modifyFirst i f s) j = getPerson s j := by
  induction s with
  | nil => rfl
  | cons q t ih =>
    by_cases hq : q.id = i
    · have h2 : (f q).id ≠ j := by rw [hf q, hq]; exact fun h => hne h.symm
      have h3 : q.id ≠ j := by rw [hq]; exact fun h => hne h.symm
      simp only [modifyFirst, if_pos hq, getPerson, if_neg h2, if_neg h3]
    · by_cases hj : q.id = j
      · simp only [modifyFirst, if_neg hq, getPerson, if_pos hj]
      · simp only [modifyFirst, if_neg hq, getPerson, if_neg hj, ih]

/-- Membership characterisation of the plain fix-up fold, for a
duplicate-free iteration list. -/
theorem get_foldMF {f : Person → Person} (hf : ∀ r, (f r).id = r.id) :
    ∀ (L : List Int) (s : Store) (j : Int), L.Nodup →
      getPerson (L.foldl (fun st x => modifyFirst x f st) s) j =
        if j ∈ L then (getPerson s j).map f else getPerson s j := by
  intro L
  induction L with
  | nil => intro s j _; simp
  | cons a L ih =>
    intro s j hnd
    have hnd' : L.Nodup := (List.nodup_cons.mp hnd).2
    have ha : a ∉ L := (List.nodup_cons.mp hnd).1
    simp only [List.foldl_cons]
    rw [ih (modifyFirst a f s) j hnd']
    by_cases hjL : j ∈ L
    · have hja : j ≠ a := fun he => ha (he ▸ hjL)
      rw [get_modifyFirst_ne hf hja]
      simp [hjL, List.mem_cons, hja]
    · by_cases hja : j = a
      · subst hja
        rw [get_modifyFirst_self hf]
        simp [hjL]
      · rw [get_modifyFirst_ne hf hja]
        simp [hjL, hja]

/-- Membership characterisation of the guarded removal fold of
`update_person` (`if o in new_list: skip`). -/
theorem get_gfold {f : Person → Person} (hf : ∀ r, (f r).id = r.id) :
    ∀ (L N : List Int) (s : Store) (j : Int), L.Nodup →
      getPerson (L.foldl (fun st o => if o ∈ N then st else modifyFirst o f st) s) j =
        if j ∈ L ∧ j ∉ N then (getPerson s j).map f else getPerson s j := by
  intro L
  induction L with
  | nil => intro N s j _; simp
  | cons a L ih =>
    intro N s j hnd
    have hnd' : L.Nodup := (List.nodup_cons.mp hnd).2
    have ha : a ∉ L := (List.nodup_cons.mp hnd).1
    simp only [List.foldl_cons]
    by_cases haN : a ∈ N
    · simp only [if_pos haN]
      rw [ih N s j hnd']
      by_cases hjC : j ∈ a :: L ∧ j ∉ N
      · have hjL : j ∈ L ∧ j ∉ N := by
          rcases List.mem_cons.mp hjC.1 with rfl | h
          · exact absurd haN hjC.2
          · exact ⟨h, hjC.2⟩
        rw [if_pos hjL, if_pos hjC]
      · have hjL : ¬ (j ∈ L ∧ j ∉ N) :=
          fun h => hjC ⟨List.mem_cons_of_mem a h.1, h.2⟩
        rw [if_neg hjL, if_neg hjC]
    · simp only [if_neg haN]
      rw [ih N (modifyFirst a f s) j hnd']
      by_cases hja : j = a
      · subst hja
        have h1 : ¬ (j ∈ L ∧ j ∉ N) := fun h => ha h.1
        have hC : j ∈ j :: L ∧ j ∉ N := ⟨List.mem_cons_self j L, haN⟩
        rw [if_neg h1, if_pos hC, get_modifyFirst_self hf]
      · rw [get_modifyFirst_ne hf hja]
        by_cases hjL : j ∈ L ∧ j ∉ N
        · have hC : j ∈ a :: L ∧ j ∉ N := ⟨List.mem_cons_of_mem a hjL.1, hjL.2⟩
          rw [if_pos hjL, if_pos hC]
        · have hC : ¬ (j ∈ a :: L ∧ j ∉ N) := by
            rintro ⟨h1, h2⟩
            rcases List.mem_cons.mp h1 with rfl | h1'
            · exact hja rfl
            · exact hjL ⟨h1', h2⟩
          rw [if_neg hjL, if_neg hC]

theorem get_map_presId {g : Person → Person} (hg : ∀ r, (g r).id = r.id)
    (s : Store) (i : Int) : getPerson (s.map g) i = (getPerson s i).map g := by
  induction s with
  | nil => rfl
  | cons q t ih =>
    by_cases hq : q.id = i
    · have : (g q).id = i := by rw [hg q, hq]
      simp [getPerson, hq, this]
    · have : (g q).id ≠ i := by rw [hg q]; exact hq
      simp [getPerson, hq, this, ih]

/-! ## Lemmas about `generate_id` -/

theorem foldl_max_init_le (l : List Person) (i : Int) :
    i ≤ l.foldl (fun m q => max m q.id) i := by
  induction l generalizing i with
  | nil => exact le_refl i
  | cons q l ih => exact le_trans (le_max_left i q.id) (ih (max i q.id))

theorem foldl_max_mem {l : List Person} {p : Person} (hp : p ∈ l) (i : Int) :
    p.id ≤ l.foldl (fun m q => max m q.id) i := by
  induction l generalizing i with
  | nil => cases hp
  | cons q l ih =>
    rcases List.mem_cons.mp hp with rfl | hp'
    · exact le_trans (le_max_right i p.id) (foldl_max_init_le l (max i p.id))
    · exact ih hp' (max i q.id)

theorem id_le_idsMax {s : Store} {p : Person} (hp : p ∈ s) : p.id ≤ idsMax s := by
  cases s with
  | nil => cases hp
  | cons q t =>
    rcases List.mem_cons.mp hp with rfl | hp'
    · exact foldl_max_init_le t p.id
    · exact foldl_max_mem hp' q.id

theorem id_lt_generate_id {s : Store} {p : Person} (hp : p ∈ s) : p.id < generate_id s :=
  lt_of_le_of_lt (id_le_idsMax hp) (by simp [generate_id])

theorem get_generate_id (s : Store) : getPerson s (generate_id s) = none := by
  rw [get_eq_none_iff]
  intro p hp
  exact ne_of_lt (id_lt_generate_id hp)

theorem not_hasId_generate_id (s : Store) : ¬ HasId s (generate_id s) := by
  rintro ⟨p, hp, hid⟩
  exact absurd hid (ne_of_lt (id_lt_generate_id hp))

/-! ## Record-level facts about the reference helpers -/

theorem addChildRef_id (n : Int) (r : Person) : (addChildRef n r).id = r.id := by
  unfold addChildRef; split <;> rfl

theorem addParentRef_id (n : Int) (r : Person) : (addParentRef n r).id = r.id := by
  unfold addParentRef; split <;> rfl

theorem delChildRef_id (i : Int) (r : Person) : (delChildRef i r).id = r.id := by
  unfold delChildRef; split <;> rfl

theorem delParentRef_id (i : Int) (r : Person) : (delParentRef i r).id = r.id := by
  unfold delParentRef; split <;> rfl

theorem addChildRef_padres (n : Int) (r : Person) : (addChildRef n r).padres = r.padres := by
  unfold addChildRef; split <;> rfl

theorem addParentRef_hijos (n : Int) (r : Person) : (addParentRef n r).hijos = r.hijos := by
  unfold addParentRef; split <;> rfl

theorem delChildRef_padres (i : Int) (r : Person) : (delChildRef i r).padres = r.padres := by
  unfold delChildRef; split <;> rfl

theorem delParentRef_hijos (i : Int) (r : Person) : (delParentRef i r).hijos = r.hijos := by
  unfold delParentRef; split <;> rfl

theorem mem_addChildRef_hijos (n x : Int) (r : Person) :
    x ∈ (addChildRef n r).hijos ↔ x ∈ r.hijos ∨ x = n := by
  unfold addChildRef
  split
  · rename_i h
    constructor
    · exact Or.inl
    · rintro (hx | rfl)
      · exact hx
      · exact h
  · simp

theorem mem_addParentRef_padres (n x : Int) (r : Person) :
    x ∈ (addParentRef n r).padres ↔ x ∈ r.padres ∨ x = n := by
  unfold addParentRef
  split
  · rename_i h
    constructor
    · exact Or.inl
    · rintro (hx | rfl)
      · exact hx
      · exact h
  · simp

theorem mem_delChildRef_hijos (i x : Int) (r : Person) (hnd : r.hijos.Nodup) :
    x ∈ (delChildRef i r).hijos ↔ x ∈ r.hijos ∧ x ≠ i := by
  unfold delChildRef
  split
  · rename_i h
    simp only [hnd.mem_erase_iff]
    tauto
  · rename_i h
    constructor
    · exact fun hx => ⟨hx, fun he => h (he ▸ hx)⟩
    · exact fun hx => hx.1

theorem mem_delParentRef_padres (i x : Int) (r : Person) (hnd : r.padres.Nodup) :
    x ∈ (delParentRef i r).padres ↔ x ∈ r.padres ∧ x ≠ i := by
  unfold delParentRef
  split
  · rename_i h
    simp only [hnd.mem_erase_iff]
    tauto
  · rename_i h
    constructor
    · exact fun hx => ⟨hx, fun he => h (he ▸ hx)⟩
    · exact fun hx => hx.1

theorem addChildRef_hijos_nodup (n : Int) (r : Person) (h : r.hijos.Nodup) :
    (addChildRef n r).hijos.Nodup := by
  unfold addChildRef
  split
  · exact h
  · rename_i hn
    simpa using List.Nodup.append h (List.nodup_singleton n) (by simpa using hn)

theorem addParentRef_padres_nodup (n : Int) (r : Person) (h : r.padres.Nodup) :
    (addParentRef n r).padres.Nodup := by
  unfold addParentRef
  split
  · exact h
  · rename_i hn
    simpa using List.Nodup.append h (List.nodup_singleton n) (by simpa using hn)

theorem delChildRef_hijos_nodup (i : Int) (r : Person) (h : r.hijos.Nodup) :
    (delChildRef i r).hijos.Nodup := by
  unfold delChildRef
  split
  · exact h.erase i
  · exact h

theorem delParentRef_padres_nodup (i : Int) (r : Person) (h : r.padres.Nodup) :
    (delParentRef i r).padres.Nodup := by
  unfold delParentRef
  split
  · exact h.erase i
  · exact h

theorem modifyFirst_congr {i : Int} {f g : Person → Person} (h : ∀ r, f r = g r) :
    ∀ s : Store, modifyFirst i f s = modifyFirst i g s := by
  intro s
  induction s with
  | nil => rfl
  | cons q t ih =>
    by_cases hq : q.id = i
    · simp [modifyFirst, hq, h]
    · simp [modifyFirst, hq, ih]

theorem modifyFirst_id_fun {i : Int} {f : Person → Person} (h : ∀ r, f r = r) :
    ∀ s : Store, modifyFirst i f s = s := by
  intro s
  induction s with
  | nil => rfl
  | cons q t ih =>
    by_cases hq : q.id = i
    · simp [modifyFirst, hq, h]
    · simp [modifyFirst, hq, ih]

/-! ## Id preservation through the fix-up folds -/

theorem hasId_iff_mem_map {s : Store} {j : Int} : HasId s j ↔ j ∈ s.map Person.id := by
  unfold HasId
  constructor
  · rintro ⟨p, hp, rfl⟩
    exact List.mem_map_of_mem Person.id hp
  · intro h
    rcases List.mem_map.mp h with ⟨q, hq, hid⟩
    exact ⟨q, hq, hid⟩

theorem foldMF_map_id {f : Person → Person} (hf : ∀ r, (f r).id = r.id) :
    ∀ (L : List Int) (s : Store),
      ((L.foldl (fun st x => modifyFirst x f st) s).map Person.id) = s.map Person.id := by
  intro L
  induction L with
  | nil => intro s; rfl
  | cons a L ih =>
    intro s
    simp only [List.foldl_cons]
    rw [ih (modifyFirst a f s), modifyFirst_map_id hf]

theorem gfold_map_id {f : Person → Person} {N : List Int} (hf : ∀ r, (f r).id = r.id) :
    ∀ (L : List Int) (s : Store),
      ((L.foldl (fun st o => if o ∈ N then st else modifyFirst o f st) s).map Person.id) =
        s.map Person.id := by
  intro L
  induction L with
  | nil => intro s; rfl
  | cons a L ih =>
    intro s
    simp only [List.foldl_cons]
    by_cases haN : a ∈ N
    · rw [if_pos haN, ih s]
    · rw [if_neg haN, ih (modifyFirst a f s), modifyFirst_map_id hf]

theorem addPerson_map_id (s : Store) (name dob desc : String)
    (parents children : Option (List Int)) :
    ((addPerson s name dob desc parents children).1.map Person.id) =
      s.map Person.id ++ [generate_id s] := by
  unfold addPerson
  simp only []
  rw [foldMF_map_id (addParentRef_id (generate_id s)),
    foldMF_map_id (addChildRef_id (generate_id s))]
  simp

/-! ## Concrete stores used in counterexamples and witnesses -/

/-- A bare record with the given id and relationship lists (all scalar
fields empty, the shape `add_person` itself produces). -/
def mkPerson (i : Int) (ps hs : List Int) : Person :=
  { id := i, nombre := "", fecha_nacimiento := "", padres := ps, hijos := hs,
    descripcion := "", x := none, y := none }

/-- `add "A"; add "B"` from the empty store, then
`update_person(1, hijos=[2, 2])`: a reachable call sequence whose
relationship argument carries a duplicate. -/
def dupChildUpd : Store × Bool :=
  updatePerson (addPerson (addPerson [] "A" "" "" none none).1 "B" "" "" none none).1
    1 none none none none (some (some [2, 2]))

/-- The reachable store holding `hijos = [2, 2]` on record 1. -/
def dupChildStore : Store := dupChildUpd.1

/-- The follow-up call `update_person(2, padres=[])` on that store. -/
def dupChildFollowUp : Store × Bool :=
  updatePerson dupChildStore 2 none none none (some (some [])) none

/-! ## Claim theorems: counterexamples and the simpler claims -/

/-- C1 (counterexample): over the reachable operation sequence
`add "A"; add "B"; update_person(1, hijos=[2,2]); update_person(2, padres=[])`
every mutating call returns successfully, yet afterwards record 1 still
lists 2 as a child while record 2 no longer lists 1 as a parent — the
bidirectional-consistency invariant does not hold after every mutating
operation. -/
theorem c1_counterexample :
    dupChildUpd.2 = true ∧ dupChildFollowUp.2 = true ∧
    ¬ BidirConsistent dupChildFollowUp.1 := by decide

/-- C2 (counterexample): calling `add_person` with the nonexistent parent
id 99 on the empty store leaves `99` inside the new record's `padres`
list although `get 99` finds nothing — the operation does not preserve
the no-dangling-references invariant when handed ids that are not in the
store. -/
theorem c2_counterexample :
    99 ∈ padresOf (addPerson [] "A" "" "" (some [99]) none).1 1 ∧
    getPerson (addPerson [] "A" "" "" (some [99]) none).1 99 = none ∧
    ¬ NoDangling (addPerson [] "A" "" "" (some [99]) none).1 := by decide

/-- C4 (counterexample): on the reachable store where record 1 holds
`hijos = [2, 2]`, the call `update_person(2, padres=[])` returns `True`
and empties record 2's `padres`, but record 1 — a previously linked
parent not present in the new set — still contains 2 in its `hijos`
list, because only the first occurrence was removed. -/
theorem c4_counterexample :
    dupChildFollowUp.2 = true ∧
    1 ∈ padresOf dupChildStore 2 ∧
    padresOf dupChildFollowUp.1 2 = [] ∧
    2 ∈ hijosOf dupChildFollowUp.1 1 := by decide

/-- C10 (confirmed): deleting id 3 from a store where record 1's `hijos`
list is `[3, 3]` removes only the first occurrence: the call succeeds,
record 3 itself is gone, and the later duplicate `3` survives in record
1's `hijos` list. -/
theorem c10_theorem :
    (deletePerson [mkPerson 1 [] [3, 3], mkPerson 3 [1] []] 3).2 = true ∧
    hijosOf (deletePerson [mkPerson 1 [] [3, 3], mkPerson 3 [1] []] 3).1 1 = [3] ∧
    getPerson (deletePerson [mkPerson 1 [] [3, 3], mkPerson 3 [1] []] 3).1 3 = none := by
  decide

/-- C6 (confirmed): `generate_id` returns `max(existing ids, default 0) + 1`
(a pure function of the store in this embedding), hence strictly exceeds
every id currently present and is `1` on the empty store; `add_person`
allocates exactly the id `generate_id` would have returned before the
call, returns it, and the result store contains a record with that id. -/
theorem c6_theorem (s : Store) :
    generate_id s = idsMax s + 1 ∧
    (∀ p ∈ s, p.id < generate_id s) ∧
    generate_id [] = 1 ∧
    (∀ name dob desc parents children,
      (addPerson s name dob desc parents children).2 = generate_id s ∧
      HasId (addPerson s name dob desc parents children).1 (generate_id s)) := by
  refine ⟨rfl, fun p hp => id_lt_generate_id hp, rfl, fun name dob desc parents children => ⟨rfl, ?_⟩⟩
  rw [hasId_iff_mem_map, addPerson_map_id]
  simp

/-- C6 witness: concrete instance on a two-record store. -/
theorem c6_witness :
    generate_id [mkPerson 1 [] [], mkPerson 5 [] []] = 6 ∧
    (∀ p ∈ [mkPerson 1 [] [], mkPerson 5 [] []], p.id < 6) ∧
    (addPerson [mkPerson 1 [] [], mkPerson 5 [] []] "C" "" "" none none).2 = 6 := by
  have h := c6_theorem [mkPerson 1 [] [], mkPerson 5 [] []]
  refine ⟨by decide, ?_, ?_⟩
  · intro p hp
    have h2 := h.2.1 p hp
    simpa using h2
  · have h3 := (h.2.2.2 "C" "" "" none none).1
    simpa using h3

/-- C7 (confirmed): for an id not present in the store, `update_person`
(with any argument combination) and `delete_person` return `False` and
leave the collection unchanged. -/
theorem c7_theorem (s : Store) (i : Int) (h : getPerson s i = none) :
    (∀ nombre fecha descripcion padres hijos,
      updatePerson s i nombre fecha descripcion padres hijos = (s, false)) ∧
    deletePerson s i = (s, false) := by
  constructor
  · intro nombre fecha descripcion padres hijos
    unfold updatePerson
    rw [h]
  · unfold deletePerson
    rw [h]

/-- C7 witness: updating or deleting id 4, absent from a one-record
store, fails and changes nothing. -/
theorem c7_witness :
    getPerson [mkPerson 1 [] []] 4 = none ∧
    updatePerson [mkPerson 1 [] []] 4 none none none none none = ([mkPerson 1 [] []], false) ∧
    deletePerson [mkPerson 1 [] []] 4 = ([mkPerson 1 [] []], false) := by
  have h := c7_theorem [mkPerson 1 [] []] 4 (by decide)
  exact ⟨by decide, h.1 none none none none none, h.2⟩

/-- C9 (confirmed): for a record present in the store, passing an
explicit `None` (modelled `some none`) for any keyword argument of
`update_person` behaves exactly like omitting it (`none`); passing
`None` for all five leaves the store untouched and still returns
`True`. -/
theorem c9_theorem (s : Store) (i : Int) (p : Person) (h : getPerson s i = some p) :
    updatePerson s i (some none) (some none) (some none) (some none) (some none) = (s, true) ∧
    (∀ nb fe de pa hi,
      updatePerson s i (some none) fe de pa hi = updatePerson s i none fe de pa hi ∧
      updatePerson s i nb (some none) de pa hi = updatePerson s i nb none de pa hi ∧
      updatePerson s i nb fe (some none) pa hi = updatePerson s i nb fe none pa hi ∧
      updatePerson s i nb fe de (some none) hi = updatePerson s i nb fe de none hi ∧
      updatePerson s i nb fe de pa (some none) = updatePerson s i nb fe de pa none) := by
  constructor
  · unfold updatePerson
    rw [h]
    have hid : modifyFirst i (scalarF (some none) (some none) (some none)) s = s :=
      modifyFirst_id_fun (fun r => rfl) s
    simp only [hid]
  · intro nb fe de pa hi
    refine ⟨?_, ?_, ?_, ?_, ?_⟩
    · unfold updatePerson
      rw [h]
      rw [show modifyFirst i (scalarF (some none) fe de) s =
            modifyFirst i (scalarF none fe de) s from
          modifyFirst_congr (fun r => rfl) s]
    · unfold updatePerson
      rw [h]
      rw [show modifyFirst i (scalarF nb (some none) de) s =
            modifyFirst i (scalarF nb none de) s from
          modifyFirst_congr (fun r => rfl) s]
    · unfold updatePerson
      rw [h]
      rw [show modifyFirst i (scalarF nb fe (some none)) s =
            modifyFirst i (scalarF nb fe none) s from
          modifyFirst_congr (fun r => rfl) s]
    · unfold updatePerson
      rw [h]
    · unfold updatePerson
      rw [h]

/-- C9 witness: on a one-record store, `update_person(1)` with every
keyword explicitly `None` returns `True` and changes nothing. -/
theorem c9_witness :
    getPerson [mkPerson 1 [2] []] 1 = some (mkPerson 1 [2] []) ∧
    updatePerson [mkPerson 1 [2] []] 1 (some none) (some none) (some none) (some none)
      (some none) = ([mkPerson 1 [2] []], true) := by
  have h := c9_theorem [mkPerson 1 [2] []] 1 (mkPerson 1 [2] []) (by decide)
  exact ⟨by decide, h.1⟩

/-- C5 (confirmed): on a store whose relationship lists are
duplicate-free, `delete_person(i)` for a present id succeeds, no
remaining record's `padres` or `hijos` contains `i`, and `get i` finds
nothing afterwards. -/
theorem c5_theorem (s : Store) (i : Int) (hnd : NodupLists s) (hex : HasId s i) :
    (deletePerson s i).2 = true ∧
    (∀ a ∈ (deletePerson s i).1, i ∉ a.padres ∧ i ∉ a.hijos) ∧
    getPerson (deletePerson s i).1 i = none := by
  obtain ⟨p, hg⟩ := hasId_iff_get.mp hex
  unfold deletePerson
  rw [hg]
  refine ⟨rfl, ?_, ?_⟩
  · intro a ha
    have ha2 := List.mem_filter.mp ha
    obtain ⟨o, ho, rfl⟩ := List.mem_map.mp ha2.1
    have hnod := hnd o ho
    constructor
    · rw [delFromLists, delChildRef_padres]
      intro hmem
      rcases (mem_delParentRef_padres i i o hnod.1).mp hmem with ⟨_, hne⟩
      exact hne rfl
    · intro hmem
      have hh : (delParentRef i o).hijos.Nodup := by
        rw [delParentRef_hijos]
        exact hnod.2
      rcases (mem_delChildRef_hijos i i (delParentRef i o) hh).mp hmem with ⟨_, hne⟩
      exact hne rfl
  · rw [get_eq_none_iff]
    intro q hq
    have hq2 := (List.mem_filter.mp hq).2
    simpa using hq2

/-- C5 witness: deleting id 1 from the two-record chain store. -/
theorem c5_witness :
    NodupLists [mkPerson 1 [] [2], mkPerson 2 [1] []] ∧
    HasId [mkPerson 1 [] [2], mkPerson 2 [1] []] 1 ∧
    (deletePerson [mkPerson 1 [] [2], mkPerson 2 [1] []] 1).2 = true ∧
    (∀ a ∈ (deletePerson [mkPerson 1 [] [2], mkPerson 2 [1] []] 1).1,
      1 ∉ a.padres ∧ 1 ∉ a.hijos) ∧
    getPerson (deletePerson [mkPerson 1 [] [2], mkPerson 2 [1] []] 1).1 1 = none := by
  have h := c5_theorem [mkPerson 1 [] [2], mkPerson 2 [1] []] 1 (by decide) (by decide)
  exact ⟨by decide, by decide, h.1, h.2.1, h.2.2⟩

/-! ## Layout position arithmetic (claim C8) -/

theorem sum_range_rat (n : Nat) :
    ((List.range n).map (fun (i : ℕ) => (i : ℚ))).sum = n * (n - 1) / 2 := by
  induction n with
  | zero => simp
  | succ m ih =>
    rw [List.range_succ, List.map_append, List.sum_append, ih]
    simp only [List.map_cons, List.map_nil, List.sum_cons, List.sum_nil]
    push_cast
    ring

theorem sum_shift_scale (l : List Nat) (c k : ℚ) :
    (l.map (fun (i : ℕ) => ((i : ℚ) - c) * k)).sum =
      ((l.map (fun (i : ℕ) => (i : ℚ))).sum - l.length * c) * k := by
  induction l with
  | nil => simp
  | cons a l ih =>
    simp only [List.map_cons, List.sum_cons, ih, List.length_cons]
    push_cast
    ring

theorem sum_xCoord (n : Nat) :
    ((List.range n).map (fun i => xCoord n i)).sum = 0 := by
  unfold xCoord
  rw [sum_shift_scale, sum_range_rat, List.length_range]
  ring

theorem levelCalls_all_present (nodeIds : List Int) (lvl : Nat) (ids : List Int)
    (hall : ∀ x ∈ ids, x ∈ nodeIds) :
    levelCalls nodeIds lvl ids =
      ids.enum.map (fun p => (p.2, xCoord ids.length p.1, (lvl : ℚ) * 200)) := by
  unfold levelCalls
  congr 1
  apply List.filter_eq_self.mpr
  intro a ha
  have h2 : ids[a.1]? = some a.2 := List.mem_enum_iff_getElem?.mp ha
  obtain ⟨hlt, hget⟩ := List.getElem?_eq_some.mp h2
  have h3 : a.2 ∈ ids := hget ▸ ids.getElem_mem hlt
  simpa using hall a.2 h3

/-- C8 (confirmed): for a level `lvl` of the layout with member list
`ids` of length `n` (all of them ids of records, hence carried by
nodes), the `i`-th `setPos` call of that level places the `i`-th id at
`x = (i - (n-1)/2) * 200`, `y = lvl * 200`; the x-coordinates of the
level sum to `0` (so their mean is `0`) and every y-coordinate of the
level equals `lvl * 200`. -/
theorem c8_theorem (s : Store) (lvl : Nat) (ids : List Int)
    (_hlvl : (autoLayoutLevels s)[lvl]? = some ids)
    (hall : ∀ x ∈ ids, x ∈ s.map Person.id) :
    (∀ i : Nat,
      (levelCalls (s.map Person.id) lvl ids)[i]? =
        (ids[i]?).map (fun v => (v, xCoord ids.length i, (lvl : ℚ) * 200))) ∧
    ((levelCalls (s.map Person.id) lvl ids).map (fun c => c.2.1)).sum = 0 ∧
    ((levelCalls (s.map Person.id) lvl ids).map (fun c => c.2.1)).sum /
      (ids.length : ℚ) = 0 ∧
    (∀ c ∈ levelCalls (s.map Person.id) lvl ids, c.2.2 = (lvl : ℚ) * 200) ∧
    autoLayout s = layoutCalls (s.map Person.id) (autoLayoutLevels s) := by
  have he := levelCalls_all_present (s.map Person.id) lvl ids hall
  have hsum : ((levelCalls (s.map Person.id) lvl ids).map (fun c => c.2.1)).sum = 0 := by
    rw [he, List.map_map]
    have h1 : ((fun c : Int × ℚ × ℚ => c.2.1) ∘
        (fun p : ℕ × Int => (p.2, xCoord ids.length p.1, (lvl : ℚ) * 200))) =
        (fun p : ℕ × Int => xCoord ids.length p.1) := rfl
    rw [h1]
    have h2 : ids.enum.map (fun p : ℕ × Int => xCoord ids.length p.1) =
        (ids.enum.map Prod.fst).map (xCoord ids.length) := by
      rw [List.map_map]
      rfl
    rw [h2, List.enum_map_fst]
    exact sum_xCoord ids.length
  refine ⟨?_, hsum, ?_, ?_, rfl⟩
  · intro i
    rw [he, List.getElem?_map, List.getElem?_enum]
    cases ids[i]? with
    | none => rfl
    | some v => rfl
  · rw [hsum, zero_div]
  · intro c hc
    rw [he] at hc
    obtain ⟨p, _, rfl⟩ := List.mem_map.mp hc
    rfl

/-- The three-generation chain 1 → 2 → 3 used as layout example. -/
def chainStore : Store := [mkPerson 1 [] [2], mkPerson 2 [1] [3], mkPerson 3 [2] []]

/-- C8 witness: on the chain, level 1 holds the single id 2, whose call
places it at `(0, 200)`, with x-sum `0`. -/
theorem c8_witness :
    (autoLayoutLevels chainStore)[1]? = some [2] ∧
    (levelCalls (chainStore.map Person.id) 1 [2])[0]? = some (2, 0, 200) ∧
    ((levelCalls (chainStore.map Person.id) 1 [2]).map (fun c => c.2.1)).sum = 0 := by
  have h := c8_theorem chainStore 1 [2] (by decide) (by decide)
  refine ⟨by decide, ?_, h.2.1⟩
  have h0 := h.1 0
  rw [h0]
  norm_num [xCoord]

/-! ## BFS level structure (claim C3) -/

theorem bfsStep_nil (co : Int → List Int) (vn : List Int × List Int) :
    bfsStep co vn [] = vn := rfl

theorem bfsStep_cons (co : Int → List Int) (v nx : List Int) (nid : Int) (cur : List Int) :
    bfsStep co (v, nx) (nid :: cur) =
      bfsStep co (v.insert nid, addChildrenBFS (v.insert nid) nx (co nid)) cur := rfl

theorem addChildrenBFS_nil (v nx : List Int) : addChildrenBFS v nx [] = nx := rfl

theorem addChildrenBFS_cons (v nx : List Int) (c : Int) (cs : List Int) :
    addChildrenBFS v nx (c :: cs) =
      addChildrenBFS v (if c ∉ v ∧ c ∉ nx then nx ++ [c] else nx) cs := rfl

theorem mem_addChildrenBFS (v : List Int) :
    ∀ (cs nx : List Int) (x : Int), x ∈ addChildrenBFS v nx cs → x ∈ nx ∨ x ∉ v := by
  intro cs
  induction cs with
  | nil => intro nx x hx; exact Or.inl hx
  | cons c cs ih =>
    intro nx x hx
    rw [addChildrenBFS_cons] at hx
    rcases ih _ x hx with hx' | hx'
    · by_cases hc : c ∉ v ∧ c ∉ nx
      · rw [if_pos hc] at hx'
        rcases List.mem_append.mp hx' with h | h
        · exact Or.inl h
        · have : x = c := by simpa using h
          exact Or.inr (this ▸ hc.1)
      · rw [if_neg hc] at hx'
        exact Or.inl hx'
    · exact Or.inr hx'

theorem bfsStep_fst_mem (co : Int → List Int) :
    ∀ (cur v nx : List Int) (x : Int),
      x ∈ (bfsStep co (v, nx) cur).1 ↔ x ∈ v ∨ x ∈ cur := by
  intro cur
  induction cur with
  | nil => intro v nx x; simp [bfsStep_nil]
  | cons nid cur ih =>
    intro v nx x
    rw [bfsStep_cons, ih]
    simp only [List.mem_insert_iff, List.mem_cons]
    tauto

theorem bfsStep_snd_mem (co : Int → List Int) :
    ∀ (cur v nx : List Int) (x : Int),
      x ∈ (bfsStep co (v, nx) cur).2 → x ∈ nx ∨ x ∉ v := by
  intro cur
  induction cur with
  | nil => intro v nx x hx; exact Or.inl hx
  | cons nid cur ih =>
    intro v nx x hx
    rw [bfsStep_cons] at hx
    rcases ih _ _ x hx with hx' | hx'
    · rcases mem_addChildrenBFS _ _ _ _ hx' with h | h
      · exact Or.inl h
      · exact Or.inr (fun hv => h (List.mem_insert_of_mem hv))
    · exact Or.inr (fun hv => hx' (List.mem_insert_of_mem hv))

theorem bfsLoop_zero (co : Int → List Int) (v cur : List Int) :
    bfsLoop co 0 v cur = [] := rfl

theorem bfsLoop_succ (co : Int → List Int) (fuel : Nat) (v cur : List Int) :
    bfsLoop co (fuel + 1) v cur =
      if cur.isEmpty then []
      else cur :: bfsLoop co fuel (bfsStep co (v, []) cur).1 (bfsStep co (v, []) cur).2 := rfl

/-- The head level of the loop output is always (a prefix case of) the
`current` worklist. -/
theorem bfsLoop_getD_zero_sub (co : Int → List Int) :
    ∀ (fuel : Nat) (v cur : List Int) (x : Int),
      x ∈ (bfsLoop co fuel v cur).getD 0 [] → x ∈ cur := by
  intro fuel
  cases fuel with
  | zero => intro v cur x hx; simp [bfsLoop_zero] at hx
  | succ fuel =>
    intro v cur x hx
    rw [bfsLoop_succ] at hx
    by_cases hc : cur.isEmpty
    · rw [if_pos hc] at hx
      simp at hx
    · rw [if_neg hc] at hx
      simpa using hx

/-- Every member of a level of index `≥ 1` was unvisited when the loop
started. -/
theorem bfsLoop_later_not_visited (co : Int → List Int) :
    ∀ (fuel : Nat) (v cur : List Int) (j : Nat) (x : Int), 1 ≤ j →
      x ∈ (bfsLoop co fuel v cur).getD j [] → x ∉ v := by
  intro fuel
  induction fuel with
  | zero => intro v cur j x _ hx; simp [bfsLoop_zero] at hx
  | succ fuel ih =>
    intro v cur j x hj hx
    rw [bfsLoop_succ] at hx
    by_cases hc : cur.isEmpty
    · rw [if_pos hc] at hx
      simp at hx
    · rw [if_neg hc] at hx
      cases j with
      | zero => cases hj
      | succ j' =>
        rw [List.getD_cons_succ] at hx
        cases Nat.eq_zero_or_pos j' with
        | inl h0 =>
          subst h0
          have hx2 := bfsLoop_getD_zero_sub co fuel _ _ x hx
          rcases bfsStep_snd_mem co cur v [] x hx2 with h | h
          · simp at h
          · exact h
        | inr hpos =>
          have hnv := ih _ _ j' x hpos hx
          intro hv
          exact hnv ((bfsStep_fst_mem co cur v [] x).mpr (Or.inl hv))

/-- A node occurring in level `i` never occurs in any level `j ≥ i + 2`. -/
theorem bfsLoop_no_far_reassign (co : Int → List Int) :
    ∀ (fuel : Nat) (v cur : List Int) (i j : Nat) (x : Int), i + 2 ≤ j →
      x ∈ (bfsLoop co fuel v cur).getD i [] →
      x ∉ (bfsLoop co fuel v cur).getD j [] := by
  intro fuel
  induction fuel with
  | zero => intro v cur i j x _ hx; simp [bfsLoop_zero] at hx
  | succ fuel ih =>
    intro v cur i j x hij hx hx'
    rw [bfsLoop_succ] at hx hx'
    by_cases hc : cur.isEmpty
    · rw [if_pos hc] at hx
      simp at hx
    · rw [if_neg hc] at hx hx'
      cases i with
      | zero =>
        have hxc : x ∈ cur := by simpa using hx
        cases j with
        | zero => cases hij
        | succ j' =>
          rw [List.getD_cons_succ] at hx'
          have hj' : 1 ≤ j' := by omega
          have hnv := bfsLoop_later_not_visited co fuel _ _ j' x hj' hx'
          exact hnv ((bfsStep_fst_mem co cur v [] x).mpr (Or.inr hxc))
      | succ i' =>
        cases j with
        | zero => cases hij
        | succ j' =>
          rw [List.getD_cons_succ] at hx hx'
          exact ih _ _ i' j' x (by omega) hx hx'

/-- Extra fuel does not change the output once the loop has terminated
within the given bound. -/
theorem bfsLoop_fuel_stable (co : Int → List Int) :
    ∀ (fuel : Nat) (v cur : List Int), (bfsLoop co fuel v cur).length < fuel →
      ∀ extra : Nat, bfsLoop co (fuel + extra) v cur = bfsLoop co fuel v cur := by
  intro fuel
  induction fuel with
  | zero => intro v cur h; omega
  | succ fuel ih =>
    intro v cur h extra
    have hre : fuel + 1 + extra = (fuel + extra) + 1 := by omega
    rw [hre, bfsLoop_succ, bfsLoop_succ]
    by_cases hc : cur.isEmpty
    · rw [if_pos hc, if_pos hc]
    · rw [if_neg hc, if_neg hc]
      rw [bfsLoop_succ, if_neg hc] at h
      simp only [List.length_cons] at h
      rw [ih _ _ (by omega) extra]

/-- A consistent diamond-shaped store: 1 is parent of 2 and 3, and 2 is
also a parent of 3. -/
def diamondStore : Store := [mkPerson 1 [] [2, 3], mkPerson 2 [1] [3], mkPerson 3 [1, 2] []]

theorem diamond_wellformed :
    BidirConsistent diamondStore ∧ NoDangling diamondStore ∧
    UniqueIds diamondStore ∧ NodupLists diamondStore := by decide

theorem diamond_levels : autoLayoutLevels diamondStore = [[1], [2, 3], [3]] := by decide

/-- The layout loop terminates well within the fuel bound on the
diamond, so `autoLayoutLevels` is fuel-independent there. -/
theorem diamond_levels_stable (extra : Nat) :
    bfsLoop (childrenMap diamondStore) (layoutFuel diamondStore + extra) []
      (rootsOf diamondStore) = autoLayoutLevels diamondStore := by
  apply bfsLoop_fuel_stable
  rw [show bfsLoop (childrenMap diamondStore) (layoutFuel diamondStore) []
      (rootsOf diamondStore) = autoLayoutLevels diamondStore from rfl, diamond_levels]
  decide

theorem diamond_calls :
    autoLayout diamondStore = [(1, 0, 0), (2, -100, 200), (3, 100, 200), (3, 0, 400)] := by
  unfold autoLayout
  rw [diamond_levels]
  simp [layoutCalls, levelCalls, xCoord, diamondStore, mkPerson, List.enum]
  norm_num

/-- C3 (counterexample): on the consistent diamond store the BFS
leveling pass assigns node 3 to level 1 (first reached as a child of
root 1) and assigns it again to level 2 (re-discovered as a child of
its sibling 2, which was processed before 3 inside level 1, at a moment
when 3 was not yet marked visited).  Its final position is the level-2
one, `(0, 400)`, not the level-1 position `(100, 200)`: re-discovery at
a deeper level does move the node. -/
theorem c3_counterexample :
    BidirConsistent diamondStore ∧ NoDangling diamondStore ∧
    3 ∈ (autoLayoutLevels diamondStore).getD 1 [] ∧
    3 ∈ (autoLayoutLevels diamondStore).getD 2 [] ∧
    lastPosOf (autoLayout diamondStore) 3 = some (0, 400) ∧
    lastPosOf (autoLayout diamondStore) 3 ≠ some (100, 200) := by
  refine ⟨by decide, by decide, by rw [diamond_levels]; decide,
    by rw [diamond_levels]; decide, ?_, ?_⟩
  · rw [diamond_calls]
    simp [lastPosOf]
  · rw [diamond_calls]
    simp [lastPosOf]

/-- C3 (amended): a node visited by the BFS pass is assigned to the
level at which it is first reached, but it can be assigned a second
time, to the immediately following level, when it is re-discovered as a
child of a not-yet-processed member of its own level, in which case the
later assignment determines its final position; a node in level `i` is
never assigned to any level `j ≥ i + 2`, whatever the worklist and
visited set the loop starts from. -/
theorem c3_theorem :
    (∀ (co : Int → List Int) (fuel : Nat) (visited current : List Int) (i j : Nat) (x : Int),
      i + 2 ≤ j → x ∈ (bfsLoop co fuel visited current).getD i [] →
      x ∉ (bfsLoop co fuel visited current).getD j []) ∧
    autoLayoutLevels diamondStore = [[1], [2, 3], [3]] ∧
    lastPosOf (autoLayout diamondStore) 3 = some (0, 400) := by
  refine ⟨fun co fuel v cur i j x hij hx => bfsLoop_no_far_reassign co fuel v cur i j x hij hx,
    diamond_levels, ?_⟩
  rw [diamond_calls]
  simp [lastPosOf]

/-- C3 witness: instantiating the no-far-reassignment statement on the
diamond layout itself, root 1 of level 0 does not reappear in level 2. -/
theorem c3_witness :
    1 ∈ (bfsLoop (childrenMap diamondStore) (layoutFuel diamondStore) []
        (rootsOf diamondStore)).getD 0 [] ∧
    1 ∉ (bfsLoop (childrenMap diamondStore) (layoutFuel diamondStore) []
        (rootsOf diamondStore)).getD 2 [] := by
  have h := c3_theorem
  exact ⟨by decide, h.1 (childrenMap diamondStore) (layoutFuel diamondStore) []
    (rootsOf diamondStore) 0 2 1 (by decide) (by decide)⟩

/-! ## Characterisation of the `padres` branch of `update_person` -/

theorem setPadresF_id (newP : List Int) (r : Person) : (setPadresF newP r).id = r.id := rfl

theorem setPadresF_hijos (newP : List Int) (r : Person) : (setPadresF newP r).hijos = r.hijos := rfl

theorem setPadresF_padres (newP : List Int) (r : Person) : (setPadresF newP r).padres = newP := rfl

theorem setHijosF_id (newH : List Int) (r : Person) : (setHijosF newH r).id = r.id := rfl

theorem setHijosF_padres (newH : List Int) (r : Person) : (setHijosF newH r).padres = r.padres := rfl

theorem setHijosF_hijos (newH : List Int) (r : Person) : (setHijosF newH r).hijos = newH := rfl

theorem replacePadres_def (s : Store) (i : Int) (newP : List Int) :
    replacePadres s i newP =
      newP.foldl (fun st q => modifyFirst q (addChildRef i) st)
        (modifyFirst i (setPadresF newP)
          ((padresOf s i).foldl
            (fun st o => if o ∈ newP then st else modifyFirst o (delChildRef i) st) s)) := rfl

theorem replacePadres_map_id (s : Store) (i : Int) (newP : List Int) :
    (replacePadres s i newP).map Person.id = s.map Person.id := by
  rw [replacePadres_def, foldMF_map_id (addChildRef_id i), modifyFirst_map_id (setPadresF_id newP),
    gfold_map_id (delChildRef_id i)]

/-- The `padres` list of the record `update_person` targets is duplicate-free
whenever the store's lists are. -/
theorem padresOf_nodup (s : Store) (i : Int) (hnl : NodupLists s) : (padresOf s i).Nodup := by
  unfold padresOf
  cases hg : getPerson s i with
  | none => simp
  | some p =>
    simp only [Option.map_some', Option.getD_some]
    exact (hnl p (get_mem hg)).1

theorem hijosOf_nodup (s : Store) (i : Int) (hnl : NodupLists s) : (hijosOf s i).Nodup := by
  unfold hijosOf
  cases hg : getPerson s i with
  | none => simp
  | some p =>
    simp only [Option.map_some', Option.getD_some]
    exact (hnl p (get_mem hg)).2

theorem getPerson_replacePadres_ne (s : Store) (i : Int) (newP : List Int) (j : Int)
    (hold : (padresOf s i).Nodup) (hnew : newP.Nodup) (hji : j ≠ i) :
    getPerson (replacePadres s i newP) j =
      if j ∈ newP then (getPerson s j).map (addChildRef i)
      else if j ∈ padresOf s i then (getPerson s j).map (delChildRef i)
      else getPerson s j := by
  rw [replacePadres_def, get_foldMF (addChildRef_id i) newP _ j hnew,
    get_modifyFirst_ne (setPadresF_id newP) hji,
    get_gfold (delChildRef_id i) (padresOf s i) newP s j hold]
  by_cases h1 : j ∈ newP
  · rw [if_pos h1, if_pos h1, if_neg (fun h => h.2 h1)]
  · rw [if_neg h1, if_neg h1]
    by_cases h2 : j ∈ padresOf s i
    · rw [if_pos (⟨h2, h1⟩ : j ∈ padresOf s i ∧ j ∉ newP), if_pos h2]
    · rw [if_neg (fun h => h2 h.1), if_neg h2]

theorem getPerson_replacePadres_self (s : Store) (i : Int) (newP : List Int)
    (hold : (padresOf s i).Nodup) (hnew : newP.Nodup) :
    getPerson (replacePadres s i newP) i =
      if i ∈ newP then (getPerson s i).map (fun r => addChildRef i (setPadresF newP r))
      else if i ∈ padresOf s i then (getPerson s i).map (fun r => setPadresF newP (delChildRef i r))
      else (getPerson s i).map (setPadresF newP) := by
  rw [replacePadres_def, get_foldMF (addChildRef_id i) newP _ i hnew,
    get_modifyFirst_self (setPadresF_id newP),
    get_gfold (delChildRef_id i) (padresOf s i) newP s i hold]
  by_cases h1 : i ∈ newP
  · rw [if_pos h1, if_pos h1, if_neg (fun h => h.2 h1), Option.map_map]
    rfl
  · rw [if_neg h1, if_neg h1]
    by_cases h2 : i ∈ padresOf s i
    · rw [if_pos (⟨h2, h1⟩ : i ∈ padresOf s i ∧ i ∉ newP), if_pos h2, Option.map_map]
      rfl
    · rw [if_neg (fun h => h2 h.1), if_neg h2]

theorem getPerson_replacePadres_none (s : Store) (i : Int) (newP : List Int) (j : Int)
    (hold : (padresOf s i).Nodup) (hnew : newP.Nodup) (hj : getPerson s j = none) :
    getPerson (replacePadres s i newP) j = none := by
  by_cases hji : j = i
  · subst hji
    rw [getPerson_replacePadres_self s j newP hold hnew]
    split_ifs <;> simp [hj]
  · rw [getPerson_replacePadres_ne s i newP j hold hnew hji]
    split_ifs <;> simp [hj]

theorem padresOf_replacePadres_self (s : Store) (i : Int) (newP : List Int) (p : Person)
    (hold : (padresOf s i).Nodup) (hnew : newP.Nodup) (hp : getPerson s i = some p) :
    padresOf (replacePadres s i newP) i = newP := by
  unfold padresOf
  rw [getPerson_replacePadres_self s i newP hold hnew]
  split_ifs <;>
    simp [hp, addChildRef_padres, setPadresF_padres]

theorem padresOf_replacePadres_ne (s : Store) (i : Int) (newP : List Int) (j : Int)
    (hold : (padresOf s i).Nodup) (hnew : newP.Nodup) (hji : j ≠ i) :
    padresOf (replacePadres s i newP) j = padresOf s j := by
  unfold padresOf
  rw [getPerson_replacePadres_ne s i newP j hold hnew hji]
  split_ifs <;>
    cases hg : getPerson s j <;>
      simp [addChildRef_padres, delChildRef_padres]

theorem mem_hijosOf_replacePadres (s : Store) (i : Int) (newP : List Int) (j x : Int)
    (rj : Person) (hold : (padresOf s i).Nodup) (hnew : newP.Nodup)
    (hj : getPerson s j = some rj) (hrj : rj.hijos.Nodup) :
    x ∈ hijosOf (replacePadres s i newP) j ↔
      (x ∈ rj.hijos ∧ ¬ (x = i ∧ j ∈ padresOf s i ∧ j ∉ newP)) ∨ (x = i ∧ j ∈ newP) := by
  unfold hijosOf
  by_cases hji : j = i
  · subst hji
    rw [getPerson_replacePadres_self s j newP hold hnew]
    by_cases h1 : j ∈ newP
    · rw [if_pos h1]
      simp only [hj, Option.map_some', Option.getD_some]
      rw [mem_addChildRef_hijos j x (setPadresF newP rj), setPadresF_hijos]
      constructor
      · rintro (hx | rfl)
        · exact Or.inl ⟨hx, fun hc => hc.2.2 h1⟩
        · exact Or.inr ⟨rfl, h1⟩
      · rintro (⟨hx, _⟩ | ⟨rfl, _⟩)
        · exact Or.inl hx
        · exact Or.inr rfl
    · rw [if_neg h1]
      by_cases h2 : j ∈ padresOf s j
      · rw [if_pos h2]
        simp only [hj, Option.map_some', Option.getD_some, setPadresF_hijos]
        rw [mem_delChildRef_hijos j x rj hrj]
        constructor
        · rintro ⟨hx, hne⟩
          exact Or.inl ⟨hx, fun hc => hne hc.1⟩
        · rintro (⟨hx, hne⟩ | ⟨rfl, hc⟩)
          · exact ⟨hx, fun he => hne ⟨he, h2, h1⟩⟩
          · exact absurd hc h1
      · rw [if_neg h2]
        simp only [hj, Option.map_some', Option.getD_some, setPadresF_hijos]
        constructor
        · intro hx
          exact Or.inl ⟨hx, fun hc => h2 hc.2.1⟩
        · rintro (⟨hx, _⟩ | ⟨rfl, hc⟩)
          · exact hx
          · exact absurd hc h1
  · rw [getPerson_replacePadres_ne s i newP j hold hnew hji]
    by_cases h1 : j ∈ newP
    · rw [if_pos h1]
      simp only [hj, Option.map_some', Option.getD_some]
      rw [mem_addChildRef_hijos]
      constructor
      · rintro (hx | rfl)
        · exact Or.inl ⟨hx, fun hc => hc.2.2 h1⟩
        · exact Or.inr ⟨rfl, h1⟩
      · rintro (⟨hx, _⟩ | ⟨rfl, _⟩)
        · exact Or.inl hx
        · exact Or.inr rfl
    · rw [if_neg h1]
      by_cases h2 : j ∈ padresOf s i
      · rw [if_pos h2]
        simp only [hj, Option.map_some', Option.getD_some]
        rw [mem_delChildRef_hijos i x rj hrj]
        constructor
        · rintro ⟨hx, hne⟩
          exact Or.inl ⟨hx, fun hc => hne hc.1⟩
        · rintro (⟨hx, hne⟩ | ⟨rfl, hc⟩)
          · exact ⟨hx, fun he => hne ⟨he, h2, h1⟩⟩
          · exact absurd hc h1
      · rw [if_neg h2]
        simp only [hj, Option.map_some', Option.getD_some]
        constructor
        · intro hx
          exact Or.inl ⟨hx, fun hc => h2 hc.2.1⟩
        · rintro (⟨hx, _⟩ | ⟨rfl, hc⟩)
          · exact hx
          · exact absurd hc h1

/-! ## Invariant preservation by the `padres` branch -/

theorem replacePadres_uniqueIds (s : Store) (i : Int) (newP : List Int) (hu : UniqueIds s) :
    UniqueIds (replacePadres s i newP) := by
  unfold UniqueIds
  rw [replacePadres_map_id]
  exact hu

theorem replacePadres_hasId (s : Store) (i : Int) (newP : List Int) (j : Int) :
    HasId (replacePadres s i newP) j ↔ HasId s j := by
  rw [hasId_iff_mem_map, hasId_iff_mem_map, replacePadres_map_id]

theorem replacePadres_nodupLists (s : Store) (i : Int) (newP : List Int)
    (hu : UniqueIds s) (hnl : NodupLists s) (hnew : newP.Nodup) :
    NodupLists (replacePadres s i newP) := by
  have hold := padresOf_nodup s i hnl
  intro a' ha'
  have hu' := replacePadres_uniqueIds s i newP hu
  have hga : getPerson (replacePadres s i newP) a'.id = some a' := get_of_uniqueIds hu' ha'
  cases hgs : getPerson s a'.id with
  | none =>
    rw [getPerson_replacePadres_none s i newP a'.id hold hnew hgs] at hga
    cases hga
  | some pa =>
    have hpa := hnl pa (get_mem hgs)
    by_cases hji : a'.id = i
    · rw [hji, getPerson_replacePadres_self s i newP hold hnew] at hga
      rw [hji] at hgs
      rw [hgs] at hga
      split_ifs at hga with h1 h2 <;>
        simp only [Option.map_some', Option.some.injEq] at hga <;> subst hga
      · exact ⟨by rw [addChildRef_padres, setPadresF_padres]; exact hnew,
          addChildRef_hijos_nodup i _ (by rw [setPadresF_hijos]; exact hpa.2)⟩
      · exact ⟨by rw [setPadresF_padres]; exact hnew,
          by rw [setPadresF_hijos]; exact delChildRef_hijos_nodup i pa hpa.2⟩
      · exact ⟨by rw [setPadresF_padres]; exact hnew,
          by rw [setPadresF_hijos]; exact hpa.2⟩
    · rw [getPerson_replacePadres_ne s i newP a'.id hold hnew hji, hgs] at hga
      split_ifs at hga with h1 h2 <;>
        simp only [Option.map_some', Option.some.injEq] at hga <;> subst hga
      · exact ⟨by rw [addChildRef_padres]; exact hpa.1,
          addChildRef_hijos_nodup i pa hpa.2⟩
      · exact ⟨by rw [delChildRef_padres]; exact hpa.1,
          delChildRef_hijos_nodup i pa hpa.2⟩
      · exact hpa

theorem replacePadres_bidir (s : Store) (i : Int) (newP : List Int)
    (hu : UniqueIds s) (h1 : BidirConsistent s) (hnl : NodupLists s) (hnew : newP.Nodup) :
    BidirConsistent (replacePadres s i newP) := by
  have hold := padresOf_nodup s i hnl
  intro a' ha' b' hb'
  have hu' := replacePadres_uniqueIds s i newP hu
  have hga : getPerson (replacePadres s i newP) a'.id = some a' := get_of_uniqueIds hu' ha'
  have hgb : getPerson (replacePadres s i newP) b'.id = some b' := get_of_uniqueIds hu' hb'
  obtain ⟨ra, hra⟩ : ∃ ra, getPerson s a'.id = some ra := by
    cases hgs : getPerson s a'.id with
    | none =>
      rw [getPerson_replacePadres_none s i newP a'.id hold hnew hgs] at hga
      cases hga
    | some ra => exact ⟨ra, rfl⟩
  obtain ⟨rb, hrb⟩ : ∃ rb, getPerson s b'.id = some rb := by
    cases hgs : getPerson s b'.id with
    | none =>
      rw [getPerson_replacePadres_none s i newP b'.id hold hnew hgs] at hgb
      cases hgb
    | some rb => exact ⟨rb, rfl⟩
  have hraid : ra.id = a'.id := get_some_id hra
  have hrbid : rb.id = b'.id := get_some_id hrb
  have hrahn : ra.hijos.Nodup := (hnl ra (get_mem hra)).2
  have hmemra : ra ∈ s := get_mem hra
  have hmemrb : rb ∈ s := get_mem hrb
  have hhij : ∀ x : Int, (x ∈ a'.hijos ↔
      (x ∈ ra.hijos ∧ ¬ (x = i ∧ a'.id ∈ padresOf s i ∧ a'.id ∉ newP)) ∨
        (x = i ∧ a'.id ∈ newP)) := by
    intro x
    have hm := mem_hijosOf_replacePadres s i newP a'.id x ra hold hnew hra hrahn
    unfold hijosOf at hm
    rw [hga] at hm
    simpa using hm
  by_cases hbi : b'.id = i
  · have hrb' : getPerson s i = some rb := hbi ▸ hrb
    have hgb' : getPerson (replacePadres s i newP) i = some b' := hbi ▸ hgb
    have hpad : b'.padres = newP := by
      have hpo := padresOf_replacePadres_self s i newP rb hold hnew hrb'
      unfold padresOf at hpo
      rw [hgb'] at hpo
      simpa using hpo
    have hpre : (i ∈ ra.hijos ↔ a'.id ∈ padresOf s i) := by
      have hx := h1 ra hmemra rb hmemrb
      rw [hraid, hrbid, hbi] at hx
      unfold padresOf
      rw [hrb']
      simpa using hx
    rw [hpad, hbi, hhij i]
    constructor
    · rintro (⟨hb, hnc⟩ | ⟨_, hA⟩)
      · by_contra hA
        exact hnc ⟨rfl, hpre.mp hb, hA⟩
      · exact hA
    · intro hA
      exact Or.inr ⟨rfl, hA⟩
  · have hpad : b'.padres = rb.padres := by
      have hpo := padresOf_replacePadres_ne s i newP b'.id hold hnew hbi
      unfold padresOf at hpo
      rw [hgb, hrb] at hpo
      simpa using hpo
    have hpre : (b'.id ∈ ra.hijos ↔ a'.id ∈ rb.padres) := by
      have hx := h1 ra hmemra rb hmemrb
      rw [hraid, hrbid] at hx
      exact hx
    rw [hpad, hhij b'.id]
    constructor
    · rintro (⟨hb, _⟩ | ⟨he, _⟩)
      · exact hpre.mp hb
      · exact absurd he hbi
    · intro hA
      exact Or.inl ⟨hpre.mpr hA, fun hc => hbi hc.1⟩

theorem replacePadres_noDangling (s : Store) (i : Int) (newP : List Int)
    (hu : UniqueIds s) (h2 : NoDangling s) (hnl : NodupLists s)
    (hi : HasId s i) (hargs : ∀ x ∈ newP, HasId s x) (hnew : newP.Nodup) :
    NoDangling (replacePadres s i newP) := by
  have hold := padresOf_nodup s i hnl
  intro a' ha'
  have hu' := replacePadres_uniqueIds s i newP hu
  have hga : getPerson (replacePadres s i newP) a'.id = some a' := get_of_uniqueIds hu' ha'
  obtain ⟨ra, hra⟩ : ∃ ra, getPerson s a'.id = some ra := by
    cases hgs : getPerson s a'.id with
    | none =>
      rw [getPerson_replacePadres_none s i newP a'.id hold hnew hgs] at hga
      cases hga
    | some ra => exact ⟨ra, rfl⟩
  have hrahn : ra.hijos.Nodup := (hnl ra (get_mem hra)).2
  have hpre := h2 ra (get_mem hra)
  constructor
  · intro x hx
    rw [replacePadres_hasId]
    by_cases hji : a'.id = i
    · have hra' : getPerson s i = some ra := hji ▸ hra
      have hga' : getPerson (replacePadres s i newP) i = some a' := hji ▸ hga
      have hpad : a'.padres = newP := by
        have hpo := padresOf_replacePadres_self s i newP ra hold hnew hra'
        unfold padresOf at hpo
        rw [hga'] at hpo
        simpa using hpo
      exact hargs x (hpad ▸ hx)
    · have hpad : a'.padres = ra.padres := by
        have hpo := padresOf_replacePadres_ne s i newP a'.id hold hnew hji
        unfold padresOf at hpo
        rw [hga, hra] at hpo
        simpa using hpo
      exact hpre.1 x (hpad ▸ hx)
  · intro x hx
    rw [replacePadres_hasId]
    have hm := mem_hijosOf_replacePadres s i newP a'.id x ra hold hnew hra hrahn
    unfold hijosOf at hm
    rw [hga] at hm
    simp only [Option.map_some', Option.getD_some] at hm
    rcases hm.mp hx with ⟨hxr, _⟩ | ⟨rfl, _⟩
    · exact hpre.2 x hxr
    · exact hi

/-! ## Characterisation of the `hijos` branch of `update_person` -/

theorem replaceHijos_def (s : Store) (i : Int) (newH : List Int) :
    replaceHijos s i newH =
      newH.foldl (fun st q => modifyFirst q (addParentRef i) st)
        (modifyFirst i (setHijosF newH)
          ((hijosOf s i).foldl
            (fun st o => if o ∈ newH then st else modifyFirst o (delParentRef i) st) s)) := rfl

theorem replaceHijos_map_id (s : Store) (i : Int) (newH : List Int) :
    (replaceHijos s i newH).map Person.id = s.map Person.id := by
  rw [replaceHijos_def, foldMF_map_id (addParentRef_id i), modifyFirst_map_id (setHijosF_id newH),
    gfold_map_id (delParentRef_id i)]

theorem getPerson_replaceHijos_ne (s : Store) (i : Int) (newH : List Int) (j : Int)
    (hold : (hijosOf s i).Nodup) (hnew : newH.Nodup) (hji : j ≠ i) :
    getPerson (replaceHijos s i newH) j =
      if j ∈ newH then (getPerson s j).map (addParentRef i)
      else if j ∈ hijosOf s i then (getPerson s j).map (delParentRef i)
      else getPerson s j := by
  rw [replaceHijos_def, get_foldMF (addParentRef_id i) newH _ j hnew,
    get_modifyFirst_ne (setHijosF_id newH) hji,
    get_gfold (delParentRef_id i) (hijosOf s i) newH s j hold]
  by_cases h1 : j ∈ newH
  · rw [if_pos h1, if_pos h1, if_neg (fun h => h.2 h1)]
  · rw [if_neg h1, if_neg h1]
    by_cases h2 : j ∈ hijosOf s i
    · rw [if_pos (⟨h2, h1⟩ : j ∈ hijosOf s i ∧ j ∉ newH), if_pos h2]
    · rw [if_neg (fun h => h2 h.1), if_neg h2]

theorem getPerson_replaceHijos_self (s : Store) (i : Int) (newH : List Int)
    (hold : (hijosOf s i).Nodup) (hnew : newH.Nodup) :
    getPerson (replaceHijos s i newH) i =
      if i ∈ newH then (getPerson s i).map (fun r => addParentRef i (setHijosF newH r))
      else if i ∈ hijosOf s i then (getPerson s i).map (fun r => setHijosF newH (delParentRef i r))
      else (getPerson s i).map (setHijosF newH) := by
  rw [replaceHijos_def, get_foldMF (addParentRef_id i) newH _ i hnew,
    get_modifyFirst_self (setHijosF_id newH),
    get_gfold (delParentRef_id i) (hijosOf s i) newH s i hold]
  by_cases h1 : i ∈ newH
  · rw [if_pos h1, if_pos h1, if_neg (fun h => h.2 h1), Option.map_map]
    rfl
  · rw [if_neg h1, if_neg h1]
    by_cases h2 : i ∈ hijosOf s i
    · rw [if_pos (⟨h2, h1⟩ : i ∈ hijosOf s i ∧ i ∉ newH), if_pos h2, Option.map_map]
      rfl
    · rw [if_neg (fun h => h2 h.1), if_neg h2]

theorem getPerson_replaceHijos_none (s : Store) (i : Int) (newH : List Int) (j : Int)
    (hold : (hijosOf s i).Nodup) (hnew : newH.Nodup) (hj : getPerson s j = none) :
    getPerson (replaceHijos s i newH) j = none := by
  by_cases hji : j = i
  · subst hji
    rw [getPerson_replaceHijos_self s j newH hold hnew]
    split_ifs <;> simp [hj]
  · rw [getPerson_replaceHijos_ne s i newH j hold hnew hji]
    split_ifs <;> simp [hj]

theorem hijosOf_replaceHijos_self (s : Store) (i : Int) (newH : List Int) (p : Person)
    (hold : (hijosOf s i).Nodup) (hnew : newH.Nodup) (hp : getPerson s i = some p) :
    hijosOf (replaceHijos s i newH) i = newH := by
  unfold hijosOf
  rw [getPerson_replaceHijos_self s i newH hold hnew]
  split_ifs <;>
    simp [hp, addParentRef_hijos, setHijosF_hijos]

theorem hijosOf_replaceHijos_ne (s : Store) (i : Int) (newH : List Int) (j : Int)
    (hold : (hijosOf s i).Nodup) (hnew : newH.Nodup) (hji : j ≠ i) :
    hijosOf (replaceHijos s i newH) j = hijosOf s j := by
  unfold hijosOf
  rw [getPerson_replaceHijos_ne s i newH j hold hnew hji]
  split_ifs <;>
    cases hg : getPerson s j <;>
      simp [addParentRef_hijos, delParentRef_hijos]

theorem mem_padresOf_replaceHijos (s : Store) (i : Int) (newH : List Int) (j x : Int)
    (rj : Person) (hold : (hijosOf s i).Nodup) (hnew : newH.Nodup)
    (hj : getPerson s j = some rj) (hrj : rj.padres.Nodup) :
    x ∈ padresOf (replaceHijos s i newH) j ↔
      (x ∈ rj.padres ∧ ¬ (x = i ∧ j ∈ hijosOf s i ∧ j ∉ newH)) ∨ (x = i ∧ j ∈ newH) := by
  unfold padresOf
  by_cases hji : j = i
  · subst hji
    rw [getPerson_replaceHijos_self s j newH hold hnew]
    by_cases h1 : j ∈ newH
    · rw [if_pos h1]
      simp only [hj, Option.map_some', Option.getD_some]
      rw [mem_addParentRef_padres j x (setHijosF newH rj), setHijosF_padres]
      constructor
      · rintro (hx | rfl)
        · exact Or.inl ⟨hx, fun hc => hc.2.2 h1⟩
        · exact Or.inr ⟨rfl, h1⟩
      · rintro (⟨hx, _⟩ | ⟨rfl, _⟩)
        · exact Or.inl hx
        · exact Or.inr rfl
    · rw [if_neg h1]
      by_cases h2 : j ∈ hijosOf s j
      · rw [if_pos h2]
        simp only [hj, Option.map_some', Option.getD_some, setHijosF_padres]
        rw [mem_delParentRef_padres j x rj hrj]
        constructor
        · rintro ⟨hx, hne⟩
          exact Or.inl ⟨hx, fun hc => hne hc.1⟩
        · rintro (⟨hx, hne⟩ | ⟨rfl, hc⟩)
          · exact ⟨hx, fun he => hne ⟨he, h2, h1⟩⟩
          · exact absurd hc h1
      · rw [if_neg h2]
        simp only [hj, Option.map_some', Option.getD_some, setHijosF_padres]
        constructor
        · intro hx
          exact Or.inl ⟨hx, fun hc => h2 hc.2.1⟩
        · rintro (⟨hx, _⟩ | ⟨rfl, hc⟩)
          · exact hx
          · exact absurd hc h1
  · rw [getPerson_replaceHijos_ne s i newH j hold hnew hji]
    by_cases h1 : j ∈ newH
    · rw [if_pos h1]
      simp only [hj, Option.map_some', Option.getD_some]
      rw [mem_addParentRef_padres]
      constructor
      · rintro (hx | rfl)
        · exact Or.inl ⟨hx, fun hc => hc.2.2 h1⟩
        · exact Or.inr ⟨rfl, h1⟩
      · rintro (⟨hx, _⟩ | ⟨rfl, _⟩)
        · exact Or.inl hx
        · exact Or.inr rfl
    · rw [if_neg h1]
      by_cases h2 : j ∈ hijosOf s i
      · rw [if_pos h2]
        simp only [hj, Option.map_some', Option.getD_some]
        rw [mem_delParentRef_padres i x rj hrj]
        constructor
        · rintro ⟨hx, hne⟩
          exact Or.inl ⟨hx, fun hc => hne hc.1⟩
        · rintro (⟨hx, hne⟩ | ⟨rfl, hc⟩)
          · exact ⟨hx, fun he => hne ⟨he, h2, h1⟩⟩
          · exact absurd hc h1
      · rw [if_neg h2]
        simp only [hj, Option.map_some', Option.getD_some]
        constructor
        · intro hx
          exact Or.inl ⟨hx, fun hc => h2 hc.2.1⟩
        · rintro (⟨hx, _⟩ | ⟨rfl, hc⟩)
          · exact hx
          · exact absurd hc h1

/-! ## Invariant preservation by the `hijos` branch -/

theorem replaceHijos_uniqueIds (s : Store) (i : Int) (newH : List Int) (hu : UniqueIds s) :
    UniqueIds (replaceHijos s i newH) := by
  unfold UniqueIds
  rw [replaceHijos_map_id]
  exact hu

theorem replaceHijos_hasId (s : Store) (i : Int) (newH : List Int) (j : Int) :
    HasId (replaceHijos s i newH) j ↔ HasId s j := by
  rw [hasId_iff_mem_map, hasId_iff_mem_map, replaceHijos_map_id]

theorem replaceHijos_nodupLists (s : Store) (i : Int) (newH : List Int)
    (hu : UniqueIds s) (hnl : NodupLists s) (hnew : newH.Nodup) :
    NodupLists (replaceHijos s i newH) := by
  have hold := hijosOf_nodup s i hnl
  intro a' ha'
  have hu' := replaceHijos_uniqueIds s i newH hu
  have hga : getPerson (replaceHijos s i newH) a'.id = some a' := get_of_uniqueIds hu' ha'
  cases hgs : getPerson s a'.id with
  | none =>
    rw [getPerson_replaceHijos_none s i newH a'.id hold hnew hgs] at hga
    cases hga
  | some pa =>
    have hpa := hnl pa (get_mem hgs)
    by_cases hji : a'.id = i
    · rw [hji, getPerson_replaceHijos_self s i newH hold hnew] at hga
      rw [hji] at hgs
      rw [hgs] at hga
      split_ifs at hga with h1 h2 <;>
        simp only [Option.map_some', Option.some.injEq] at hga <;> subst hga
      · exact ⟨addParentRef_padres_nodup i _ (by rw [setHijosF_padres]; exact hpa.1),
          by rw [addParentRef_hijos, setHijosF_hijos]; exact hnew⟩
      · exact ⟨by rw [setHijosF_padres]; exact delParentRef_padres_nodup i pa hpa.1,
          by rw [setHijosF_hijos]; exact hnew⟩
      · exact ⟨by rw [setHijosF_padres]; exact hpa.1,
          by rw [setHijosF_hijos]; exact hnew⟩
    · rw [getPerson_replaceHijos_ne s i newH a'.id hold hnew hji, hgs] at hga
      split_ifs at hga with h1 h2 <;>
        simp only [Option.map_some', Option.some.injEq] at hga <;> subst hga
      · exact ⟨addParentRef_padres_nodup i pa hpa.1,
          by rw [addParentRef_hijos]; exact hpa.2⟩
      · exact ⟨delParentRef_padres_nodup i pa hpa.1,
          by rw [delParentRef_hijos]; exact hpa.2⟩
      · exact hpa

theorem replaceHijos_bidir (s : Store) (i : Int) (newH : List Int)
    (hu : UniqueIds s) (h1 : BidirConsistent s) (hnl : NodupLists s) (hnew : newH.Nodup) :
    BidirConsistent (replaceHijos s i newH) := by
  have hold := hijosOf_nodup s i hnl
  intro a' ha' b' hb'
  have hu' := replaceHijos_uniqueIds s i newH hu
  have hga : getPerson (replaceHijos s i newH) a'.id = some a' := get_of_uniqueIds hu' ha'
  have hgb : getPerson (replaceHijos s i newH) b'.id = some b' := get_of_uniqueIds hu' hb'
  obtain ⟨ra, hra⟩ : ∃ ra, getPerson s a'.id = some ra := by
    cases hgs : getPerson s a'.id with
    | none =>
      rw [getPerson_replaceHijos_none s i newH a'.id hold hnew hgs] at hga
      cases hga
    | some ra => exact ⟨ra, rfl⟩
  obtain ⟨rb, hrb⟩ : ∃ rb, getPerson s b'.id = some rb := by
    cases hgs : getPerson s b'.id with
    | none =>
      rw [getPerson_replaceHijos_none s i newH b'.id hold hnew hgs] at hgb
      cases hgb
    | some rb => exact ⟨rb, rfl⟩
  have hraid : ra.id = a'.id := get_some_id hra
  have hrbid : rb.id = b'.id := get_some_id hrb
  have hrbpn : rb.padres.Nodup := (hnl rb (get_mem hrb)).1
  have hmemra : ra ∈ s := get_mem hra
  have hmemrb : rb ∈ s := get_mem hrb
  have hpad : ∀ x : Int, (x ∈ b'.padres ↔
      (x ∈ rb.padres ∧ ¬ (x = i ∧ b'.id ∈ hijosOf s i ∧ b'.id ∉ newH)) ∨
        (x = i ∧ b'.id ∈ newH)) := by
    intro x
    have hm := mem_padresOf_replaceHijos s i newH b'.id x rb hold hnew hrb hrbpn
    unfold padresOf at hm
    rw [hgb] at hm
    simpa using hm
  by_cases hai : a'.id = i
  · have hra' : getPerson s i = some ra := hai ▸ hra
    have hga' : getPerson (replaceHijos s i newH) i = some a' := hai ▸ hga
    have hhij : a'.hijos = newH := by
      have hpo := hijosOf_replaceHijos_self s i newH ra hold hnew hra'
      unfold hijosOf at hpo
      rw [hga'] at hpo
      simpa using hpo
    have hpre : (b'.id ∈ hijosOf s i ↔ i ∈ rb.padres) := by
      have hx := h1 ra hmemra rb hmemrb
      rw [hraid, hrbid, hai] at hx
      unfold hijosOf
      rw [hra']
      simpa using hx
    rw [hhij, hai, hpad i]
    constructor
    · intro hA
      exact Or.inr ⟨rfl, hA⟩
    · rintro (⟨hb, hnc⟩ | ⟨_, hA⟩)
      · by_contra hA
        exact hnc ⟨rfl, hpre.mpr hb, hA⟩
      · exact hA
  · have hhij : a'.hijos = ra.hijos := by
      have hpo := hijosOf_replaceHijos_ne s i newH a'.id hold hnew hai
      unfold hijosOf at hpo
      rw [hga, hra] at hpo
      simpa using hpo
    have hpre : (b'.id ∈ ra.hijos ↔ a'.id ∈ rb.padres) := by
      have hx := h1 ra hmemra rb hmemrb
      rw [hraid, hrbid] at hx
      exact hx
    rw [hhij, hpad a'.id]
    constructor
    · intro hA
      exact Or.inl ⟨hpre.mp hA, fun hc => hai hc.1⟩
    · rintro (⟨hb, _⟩ | ⟨he, _⟩)
      · exact hpre.mpr hb
      · exact absurd he hai

theorem replaceHijos_noDangling (s : Store) (i : Int) (newH : List Int)
    (hu : UniqueIds s) (h2 : NoDangling s) (hnl : NodupLists s)
    (hi : HasId s i) (hargs : ∀ x ∈ newH, HasId s x) (hnew : newH.Nodup) :
    NoDangling (replaceHijos s i newH) := by
  have hold := hijosOf_nodup s i hnl
  intro a' ha'
  have hu' := replaceHijos_uniqueIds s i newH hu
  have hga : getPerson (replaceHijos s i newH) a'.id = some a' := get_of_uniqueIds hu' ha'
  obtain ⟨ra, hra⟩ : ∃ ra, getPerson s a'.id = some ra := by
    cases hgs : getPerson s a'.id with
    | none =>
      rw [getPerson_replaceHijos_none s i newH a'.id hold hnew hgs] at hga
      cases hga
    | some ra => exact ⟨ra, rfl⟩
  have hrapn : ra.padres.Nodup := (hnl ra (get_mem hra)).1
  have hpre := h2 ra (get_mem hra)
  constructor
  · intro x hx
    rw [replaceHijos_hasId]
    have hm := mem_padresOf_replaceHijos s i newH a'.id x ra hold hnew hra hrapn
    unfold padresOf at hm
    rw [hga] at hm
    simp only [Option.map_some', Option.getD_some] at hm
    rcases hm.mp hx with ⟨hxr, _⟩ | ⟨rfl, _⟩
    · exact hpre.1 x hxr
    · exact hi
  · intro x hx
    rw [replaceHijos_hasId]
    by_cases hji : a'.id = i
    · have hra' : getPerson s i = some ra := hji ▸ hra
      have hga' : getPerson (replaceHijos s i newH) i = some a' := hji ▸ hga
      have hhij : a'.hijos = newH := by
        have hpo := hijosOf_replaceHijos_self s i newH ra hold hnew hra'
        unfold hijosOf at hpo
        rw [hga'] at hpo
        simpa using hpo
      exact hargs x (hhij ▸ hx)
    · have hhij : a'.hijos = ra.hijos := by
        have hpo := hijosOf_replaceHijos_ne s i newH a'.id hold hnew hji
        unfold hijosOf at hpo
        rw [hga, hra] at hpo
        simpa using hpo
      exact hpre.2 x (hhij ▸ hx)

/-! ## The scalar stage of `update_person` preserves relational structure -/

theorem mem_modifyFirst_fields {i : Int} {g : Person → Person}
    (hgi : ∀ r, (g r).id = r.id) (hgp : ∀ r, (g r).padres = r.padres)
    (hgh : ∀ r, (g r).hijos = r.hijos) :
    ∀ (s : Store) (a' : Person), a' ∈ modifyFirst i g s →
      ∃ a ∈ s, a'.id = a.id ∧ a'.padres = a.padres ∧ a'.hijos = a.hijos := by
  intro s
  induction s with
  | nil => intro a' ha'; cases ha'
  | cons q t ih =>
    intro a' ha'
    by_cases hq : q.id = i
    · rw [modifyFirst, if_pos hq] at ha'
      rcases List.mem_cons.mp ha' with rfl | ha''
      · exact ⟨q, List.mem_cons_self q t, hgi q, hgp q, hgh q⟩
      · exact ⟨a', List.mem_cons_of_mem q ha'', rfl, rfl, rfl⟩
    · rw [modifyFirst, if_neg hq] at ha'
      rcases List.mem_cons.mp ha' with rfl | ha''
      · exact ⟨a', List.mem_cons_self a' t, rfl, rfl, rfl⟩
      · obtain ⟨a, hat, h⟩ := ih a' ha''
        exact ⟨a, List.mem_cons_of_mem q hat, h⟩

theorem scalarF_pres_id (nb fe de : Option (Option String)) (r : Person) :
    (scalarF nb fe de r).id = r.id := rfl

theorem scalarF_pres_padres (nb fe de : Option (Option String)) (r : Person) :
    (scalarF nb fe de r).padres = r.padres := rfl

theorem scalarF_pres_hijos (nb fe de : Option (Option String)) (r : Person) :
    (scalarF nb fe de r).hijos = r.hijos := rfl

theorem scalar_stage_bidir (s : Store) (i : Int) (nb fe de : Option (Option String))
    (h1 : BidirConsistent s) : BidirConsistent (modifyFirst i (scalarF nb fe de) s) := by
  intro a' ha' b' hb'
  obtain ⟨a, has, hai, hap, hah⟩ := mem_modifyFirst_fields (scalarF_pres_id nb fe de)
    (scalarF_pres_padres nb fe de) (scalarF_pres_hijos nb fe de) s a' ha'
  obtain ⟨b, hbs, hbi, hbp, hbh⟩ := mem_modifyFirst_fields (scalarF_pres_id nb fe de)
    (scalarF_pres_padres nb fe de) (scalarF_pres_hijos nb fe de) s b' hb'
  rw [hai, hbi, hah, hbp]
  exact h1 a has b hbs

theorem scalar_stage_noDangling (s : Store) (i : Int) (nb fe de : Option (Option String))
    (h2 : NoDangling s) : NoDangling (modifyFirst i (scalarF nb fe de) s) := by
  intro a' ha'
  obtain ⟨a, has, _, hap, hah⟩ := mem_modifyFirst_fields (scalarF_pres_id nb fe de)
    (scalarF_pres_padres nb fe de) (scalarF_pres_hijos nb fe de) s a' ha'
  have hpre := h2 a has
  constructor
  · intro x hx
    rw [hasId_modifyFirst (scalarF_pres_id nb fe de)]
    exact hpre.1 x (hap ▸ hx)
  · intro x hx
    rw [hasId_modifyFirst (scalarF_pres_id nb fe de)]
    exact hpre.2 x (hah ▸ hx)

theorem scalar_stage_uniqueIds (s : Store) (i : Int) (nb fe de : Option (Option String))
    (hu : UniqueIds s) : UniqueIds (modifyFirst i (scalarF nb fe de) s) := by
  unfold UniqueIds
  rw [modifyFirst_map_id (scalarF_pres_id nb fe de)]
  exact hu

theorem scalar_stage_nodupLists (s : Store) (i : Int) (nb fe de : Option (Option String))
    (hnl : NodupLists s) : NodupLists (modifyFirst i (scalarF nb fe de) s) := by
  intro a' ha'
  obtain ⟨a, has, _, hap, hah⟩ := mem_modifyFirst_fields (scalarF_pres_id nb fe de)
    (scalarF_pres_padres nb fe de) (scalarF_pres_hijos nb fe de) s a' ha'
  rw [hap, hah]
  exact hnl a has

/-! ## Characterisation of `add_person` -/

/-- The record `add_person` constructs before appending it. -/
def newPersonRec (s : Store) (name dob desc : String)
    (parents children : Option (List Int)) : Person :=
  { id := generate_id s, nombre := name, fecha_nacimiento := dob,
    padres := parents.getD [], hijos := children.getD [],
    descripcion := desc, x := none, y := none }

theorem getPerson_append_newRec (s : Store) (name dob desc : String)
    (parents children : Option (List Int)) :
    getPerson (s ++ [newPersonRec s name dob desc parents children]) (generate_id s) =
      some (newPersonRec s name dob desc parents children) := by
  rw [get_append_right (get_generate_id s)]
  simp [getPerson, newPersonRec]

theorem getPerson_append_ne (s : Store) (name dob desc : String)
    (parents children : Option (List Int)) (j : Int) (hj : j ≠ generate_id s) :
    getPerson (s ++ [newPersonRec s name dob desc parents children]) j = getPerson s j := by
  cases hg : getPerson s j with
  | none =>
    rw [get_append_right hg]
    simp only [getPerson, newPersonRec]
    rw [if_neg (fun h => hj h.symm)]
  | some p => exact get_append_left hg

theorem addPerson_fst_def (s : Store) (name dob desc : String)
    (parents children : Option (List Int)) :
    (addPerson s name dob desc parents children).1 =
      (hijosOf ((parents.getD []).foldl
          (fun st pid => modifyFirst pid (addChildRef (generate_id s)) st)
          (s ++ [newPersonRec s name dob desc parents children])) (generate_id s)).foldl
        (fun st cid => modifyFirst cid (addParentRef (generate_id s)) st)
        ((parents.getD []).foldl
          (fun st pid => modifyFirst pid (addChildRef (generate_id s)) st)
          (s ++ [newPersonRec s name dob desc parents children])) := rfl

theorem getPerson_addPerson_self (s : Store) (name dob desc : String)
    (parents children : Option (List Int))
    (hP : (parents.getD []).Nodup) (hC : (children.getD []).Nodup)
    (hPn : generate_id s ∉ parents.getD []) (hCn : generate_id s ∉ children.getD []) :
    getPerson (addPerson s name dob desc parents children).1 (generate_id s) =
      some (newPersonRec s name dob desc parents children) := by
  have hs2 : getPerson
      ((parents.getD []).foldl
        (fun st pid => modifyFirst pid (addChildRef (generate_id s)) st)
        (s ++ [newPersonRec s name dob desc parents children])) (generate_id s) =
      some (newPersonRec s name dob desc parents children) := by
    rw [get_foldMF (addChildRef_id (generate_id s)) (parents.getD []) _ (generate_id s) hP,
      if_neg hPn, getPerson_append_newRec]
  rw [addPerson_fst_def]
  rw [show hijosOf ((parents.getD []).foldl
        (fun st pid => modifyFirst pid (addChildRef (generate_id s)) st)
        (s ++ [newPersonRec s name dob desc parents children])) (generate_id s) =
      children.getD [] by unfold hijosOf; rw [hs2]; rfl]
  rw [get_foldMF (addParentRef_id (generate_id s)) (children.getD []) _ (generate_id s) hC,
    if_neg hCn, hs2]

theorem getPerson_addPerson_ne (s : Store) (name dob desc : String)
    (parents children : Option (List Int)) (j : Int)
    (hP : (parents.getD []).Nodup) (hC : (children.getD []).Nodup)
    (hPn : generate_id s ∉ parents.getD []) (hj : j ≠ generate_id s) :
    getPerson (addPerson s name dob desc parents children).1 j =
      if j ∈ children.getD [] then
        (if j ∈ parents.getD [] then (getPerson s j).map (addChildRef (generate_id s))
         else getPerson s j).map (addParentRef (generate_id s))
      else
        (if j ∈ parents.getD [] then (getPerson s j).map (addChildRef (generate_id s))
         else getPerson s j) := by
  have hs2 : getPerson
      ((parents.getD []).foldl
        (fun st pid => modifyFirst pid (addChildRef (generate_id s)) st)
        (s ++ [newPersonRec s name dob desc parents children])) (generate_id s) =
      some (newPersonRec s name dob desc parents children) := by
    rw [get_foldMF (addChildRef_id (generate_id s)) (parents.getD []) _ (generate_id s) hP,
      if_neg hPn, getPerson_append_newRec]
  rw [addPerson_fst_def]
  rw [show hijosOf ((parents.getD []).foldl
        (fun st pid => modifyFirst pid (addChildRef (generate_id s)) st)
        (s ++ [newPersonRec s name dob desc parents children])) (generate_id s) =
      children.getD [] by unfold hijosOf; rw [hs2]; rfl]
  rw [get_foldMF (addParentRef_id (generate_id s)) (children.getD []) _ j hC,
    get_foldMF (addChildRef_id (generate_id s)) (parents.getD []) _ j hP,
    getPerson_append_ne s name dob desc parents children j hj]

/-! ## Invariant preservation by `add_person` -/

theorem addPerson_uniqueIds (s : Store) (name dob desc : String)
    (parents children : Option (List Int)) (hu : UniqueIds s) :
    UniqueIds (addPerson s name dob desc parents children).1 := by
  unfold UniqueIds
  rw [addPerson_map_id]
  rw [List.nodup_append]
  refine ⟨hu, List.nodup_singleton _, ?_⟩
  intro x hx
  rcases List.mem_map.mp hx with ⟨r, hr, rfl⟩
  simp only [List.mem_singleton]
  exact ne_of_lt (id_lt_generate_id hr)

theorem addPerson_hasId (s : Store) (name dob desc : String)
    (parents children : Option (List Int)) (j : Int) :
    HasId (addPerson s name dob desc parents children).1 j ↔ HasId s j ∨ j = generate_id s := by
  rw [hasId_iff_mem_map, addPerson_map_id, List.mem_append, hasId_iff_mem_map]
  simp

theorem addPerson_fields_ne (s : Store) (name dob desc : String)
    (parents children : Option (List Int)) (j : Int) (c' : Person)
    (hP : (parents.getD []).Nodup) (hC : (children.getD []).Nodup)
    (hPn : generate_id s ∉ parents.getD []) (hj : j ≠ generate_id s)
    (hgc : getPerson (addPerson s name dob desc parents children).1 j = some c') :
    ∃ rj, getPerson s j = some rj ∧
      (∀ x, x ∈ c'.padres ↔ x ∈ rj.padres ∨ (x = generate_id s ∧ j ∈ children.getD [])) ∧
      (∀ x, x ∈ c'.hijos ↔ x ∈ rj.hijos ∨ (x = generate_id s ∧ j ∈ parents.getD [])) ∧
      (rj.padres.Nodup → c'.padres.Nodup) ∧ (rj.hijos.Nodup → c'.hijos.Nodup) := by
  rw [getPerson_addPerson_ne s name dob desc parents children j hP hC hPn hj] at hgc
  cases hg : getPerson s j with
  | none =>
    rw [hg] at hgc
    split_ifs at hgc <;> simp at hgc
  | some rj =>
    rw [hg] at hgc
    refine ⟨rj, rfl, ?_⟩
    split_ifs at hgc with h1 h2 h3 <;>
      simp only [Option.map_some', Option.some.injEq] at hgc <;> subst hgc
    · exact ⟨fun x => by
        rw [mem_addParentRef_padres, addChildRef_padres]
        tauto,
      fun x => by
        rw [addParentRef_hijos, mem_addChildRef_hijos]
        tauto,
      fun h => addParentRef_padres_nodup _ _ (by rw [addChildRef_padres]; exact h),
      fun h => by rw [addParentRef_hijos]; exact addChildRef_hijos_nodup _ _ h⟩
    · exact ⟨fun x => by
        rw [mem_addParentRef_padres]
        tauto,
      fun x => by
        rw [addParentRef_hijos]
        tauto,
      fun h => addParentRef_padres_nodup _ _ h,
      fun h => by rw [addParentRef_hijos]; exact h⟩
    · exact ⟨fun x => by
        rw [addChildRef_padres]
        tauto,
      fun x => by
        rw [mem_addChildRef_hijos]
        tauto,
      fun h => by rw [addChildRef_padres]; exact h,
      fun h => addChildRef_hijos_nodup _ _ h⟩
    · exact ⟨fun x => by tauto, fun x => by tauto, fun h => h, fun h => h⟩

theorem addPerson_bidir (s : Store) (name dob desc : String)
    (parents children : Option (List Int))
    (hu : UniqueIds s) (h1 : BidirConsistent s) (h2 : NoDangling s)
    (hPv : ValidArg s (parents.getD [])) (hCv : ValidArg s (children.getD [])) :
    BidirConsistent (addPerson s name dob desc parents children).1 := by
  have hPn : generate_id s ∉ parents.getD [] :=
    fun h => not_hasId_generate_id s (hPv.1 _ h)
  have hCn : generate_id s ∉ children.getD [] :=
    fun h => not_hasId_generate_id s (hCv.1 _ h)
  have hfresh : ∀ r ∈ s, generate_id s ∉ r.padres ∧ generate_id s ∉ r.hijos := by
    intro r hr
    exact ⟨fun hc => not_hasId_generate_id s ((h2 r hr).1 _ hc),
      fun hc => not_hasId_generate_id s ((h2 r hr).2 _ hc)⟩
  have hu' := addPerson_uniqueIds s name dob desc parents children hu
  intro a' ha' b' hb'
  have hga := get_of_uniqueIds hu' ha'
  have hgb := get_of_uniqueIds hu' hb'
  by_cases hai : a'.id = generate_id s
  · have hga' : some (newPersonRec s name dob desc parents children) = some a' := by
      rw [← getPerson_addPerson_self s name dob desc parents children hPv.2 hCv.2 hPn hCn,
        ← hai, hga]
    have haeq : a' = newPersonRec s name dob desc parents children :=
      (Option.some.injEq _ _ ▸ hga').symm
    by_cases hbi : b'.id = generate_id s
    · have hgb' : some (newPersonRec s name dob desc parents children) = some b' := by
        rw [← getPerson_addPerson_self s name dob desc parents children hPv.2 hCv.2 hPn hCn,
          ← hbi, hgb]
      have hbeq : b' = newPersonRec s name dob desc parents children :=
        (Option.some.injEq _ _ ▸ hgb').symm
      rw [haeq, hbeq]
      show generate_id s ∈ children.getD [] ↔ generate_id s ∈ parents.getD []
      exact iff_of_false hCn hPn
    · obtain ⟨rb, hrb, hbp, _, _, _⟩ := addPerson_fields_ne s name dob desc parents children
        b'.id b' hPv.2 hCv.2 hPn hbi hgb
      have hnrb : generate_id s ∉ rb.padres := (hfresh rb (get_mem hrb)).1
      rw [haeq]
      show b'.id ∈ children.getD [] ↔ generate_id s ∈ b'.padres
      rw [hbp (generate_id s)]
      constructor
      · intro hbc
        exact Or.inr ⟨rfl, hbc⟩
      · rintro (hc | ⟨_, hbc⟩)
        · exact absurd hc hnrb
        · exact hbc
  · obtain ⟨ra, hra, _, hah, _, _⟩ := addPerson_fields_ne s name dob desc parents children
      a'.id a' hPv.2 hCv.2 hPn hai hga
    have hnra : generate_id s ∉ ra.hijos := (hfresh ra (get_mem hra)).2
    have hraid : ra.id = a'.id := get_some_id hra
    by_cases hbi : b'.id = generate_id s
    · have hgb' : some (newPersonRec s name dob desc parents children) = some b' := by
        rw [← getPerson_addPerson_self s name dob desc parents children hPv.2 hCv.2 hPn hCn,
          ← hbi, hgb]
      have hbeq : b' = newPersonRec s name dob desc parents children :=
        (Option.some.injEq _ _ ▸ hgb').symm
      rw [hbeq]
      show generate_id s ∈ a'.hijos ↔ a'.id ∈ parents.getD []
      rw [hah (generate_id s)]
      constructor
      · rintro (hc | ⟨_, hc⟩)
        · exact absurd hc hnra
        · exact hc
      · intro hc
        exact Or.inr ⟨rfl, hc⟩
    · obtain ⟨rb, hrb, hbp, _, _, _⟩ := addPerson_fields_ne s name dob desc parents children
        b'.id b' hPv.2 hCv.2 hPn hbi hgb
      have hrbid : rb.id = b'.id := get_some_id hrb
      have hpre := h1 ra (get_mem hra) rb (get_mem hrb)
      rw [hraid, hrbid] at hpre
      rw [hah b'.id, hbp a'.id]
      constructor
      · rintro (hc | ⟨he, _⟩)
        · exact Or.inl (hpre.mp hc)
        · exact absurd he hbi
      · rintro (hc | ⟨he, _⟩)
        · exact Or.inl (hpre.mpr hc)
        · exact absurd he hai

theorem addPerson_noDangling (s : Store) (name dob desc : String)
    (parents children : Option (List Int))
    (hu : UniqueIds s) (h2 : NoDangling s)
    (hPv : ValidArg s (parents.getD [])) (hCv : ValidArg s (children.getD [])) :
    NoDangling (addPerson s name dob desc parents children).1 := by
  have hPn : generate_id s ∉ parents.getD [] :=
    fun h => not_hasId_generate_id s (hPv.1 _ h)
  have hCn : generate_id s ∉ children.getD [] :=
    fun h => not_hasId_generate_id s (hCv.1 _ h)
  have hu' := addPerson_uniqueIds s name dob desc parents children hu
  intro a' ha'
  have hga := get_of_uniqueIds hu' ha'
  by_cases hai : a'.id = generate_id s
  · have hga' : some (newPersonRec s name dob desc parents children) = some a' := by
      rw [← getPerson_addPerson_self s name dob desc parents children hPv.2 hCv.2 hPn hCn,
        ← hai, hga]
    have haeq : a' = newPersonRec s name dob desc parents children :=
      (Option.some.injEq _ _ ▸ hga').symm
    rw [haeq]
    constructor
    · intro x hx
      rw [addPerson_hasId]
      exact Or.inl (hPv.1 x hx)
    · intro x hx
      rw [addPerson_hasId]
      exact Or.inl (hCv.1 x hx)
  · obtain ⟨ra, hra, hap, hah, _, _⟩ := addPerson_fields_ne s name dob desc parents children
      a'.id a' hPv.2 hCv.2 hPn hai hga
    have hpre := h2 ra (get_mem hra)
    constructor
    · intro x hx
      rw [addPerson_hasId]
      rcases (hap x).mp hx with hc | ⟨rfl, _⟩
      · exact Or.inl (hpre.1 x hc)
      · exact Or.inr rfl
    · intro x hx
      rw [addPerson_hasId]
      rcases (hah x).mp hx with hc | ⟨rfl, _⟩
      · exact Or.inl (hpre.2 x hc)
      · exact Or.inr rfl

theorem addPerson_nodupLists (s : Store) (name dob desc : String)
    (parents children : Option (List Int))
    (hu : UniqueIds s) (hnl : NodupLists s)
    (hPv : ValidArg s (parents.getD [])) (hCv : ValidArg s (children.getD [])) :
    NodupLists (addPerson s name dob desc parents children).1 := by
  have hPn : generate_id s ∉ parents.getD [] :=
    fun h => not_hasId_generate_id s (hPv.1 _ h)
  have hCn : generate_id s ∉ children.getD [] :=
    fun h => not_hasId_generate_id s (hCv.1 _ h)
  have hu' := addPerson_uniqueIds s name dob desc parents children hu
  intro a' ha'
  have hga := get_of_uniqueIds hu' ha'
  by_cases hai : a'.id = generate_id s
  · have hga' : some (newPersonRec s name dob desc parents children) = some a' := by
      rw [← getPerson_addPerson_self s name dob desc parents children hPv.2 hCv.2 hPn hCn,
        ← hai, hga]
    have haeq : a' = newPersonRec s name dob desc parents children :=
      (Option.some.injEq _ _ ▸ hga').symm
    rw [haeq]
    exact ⟨hPv.2, hCv.2⟩
  · obtain ⟨ra, hra, _, _, hnp, hnh⟩ := addPerson_fields_ne s name dob desc parents children
      a'.id a' hPv.2 hCv.2 hPn hai hga
    have hpre := hnl ra (get_mem hra)
    exact ⟨hnp hpre.1, hnh hpre.2⟩

/-! ## Invariant preservation by `delete_person` -/

theorem delFromLists_id (i : Int) (o : Person) : (delFromLists i o).id = o.id := by
  unfold delFromLists
  rw [delChildRef_id, delParentRef_id]

theorem mem_delFromLists_padres (i x : Int) (o : Person) (hnd : o.padres.Nodup) :
    x ∈ (delFromLists i o).padres ↔ x ∈ o.padres ∧ x ≠ i := by
  unfold delFromLists
  rw [delChildRef_padres, mem_delParentRef_padres i x o hnd]

theorem mem_delFromLists_hijos (i x : Int) (o : Person) (hnd : o.hijos.Nodup) :
    x ∈ (delFromLists i o).hijos ↔ x ∈ o.hijos ∧ x ≠ i := by
  unfold delFromLists
  rw [mem_delChildRef_hijos i x (delParentRef i o) (by rw [delParentRef_hijos]; exact hnd),
    delParentRef_hijos]

theorem deletePerson_result (s : Store) (i : Int) (p : Person) (hp : getPerson s i = some p) :
    deletePerson s i = ((s.map (delFromLists i)).filter (fun q => q.id ≠ i), true) := by
  unfold deletePerson
  rw [hp]

theorem mem_deletePerson (s : Store) (i : Int) (p : Person) (hp : getPerson s i = some p)
    (a' : Person) :
    a' ∈ (deletePerson s i).1 ↔ ∃ o ∈ s, a' = delFromLists i o ∧ o.id ≠ i := by
  rw [deletePerson_result s i p hp]
  simp only [List.mem_filter, List.mem_map]
  constructor
  · rintro ⟨⟨o, ho, rfl⟩, hid⟩
    refine ⟨o, ho, rfl, ?_⟩
    rw [delFromLists_id] at hid
    simpa using hid
  · rintro ⟨o, ho, rfl, hid⟩
    refine ⟨⟨o, ho, rfl⟩, ?_⟩
    rw [delFromLists_id]
    simpa using hid

theorem deletePerson_bidir (s : Store) (i : Int)
    (h1 : BidirConsistent s) (hnl : NodupLists s) :
    BidirConsistent (deletePerson s i).1 := by
  cases hp : getPerson s i with
  | none =>
    unfold deletePerson
    rw [hp]
    exact h1
  | some p =>
    intro a' ha' b' hb'
    obtain ⟨o, ho, rfl, hoid⟩ := (mem_deletePerson s i p hp a').mp ha'
    obtain ⟨r, hr, rfl, hrid⟩ := (mem_deletePerson s i p hp b').mp hb'
    rw [delFromLists_id, delFromLists_id,
      mem_delFromLists_hijos i r.id o (hnl o ho).2,
      mem_delFromLists_padres i o.id r (hnl r hr).1]
    have hpre := h1 o ho r hr
    constructor
    · rintro ⟨hm, _⟩
      exact ⟨hpre.mp hm, hoid⟩
    · rintro ⟨hm, _⟩
      exact ⟨hpre.mpr hm, hrid⟩

theorem deletePerson_noDangling (s : Store) (i : Int)
    (h2 : NoDangling s) (hnl : NodupLists s) :
    NoDangling (deletePerson s i).1 := by
  cases hp : getPerson s i with
  | none =>
    unfold deletePerson
    rw [hp]
    exact h2
  | some p =>
    intro a' ha'
    obtain ⟨o, ho, rfl, _⟩ := (mem_deletePerson s i p hp a').mp ha'
    have hpre := h2 o ho
    constructor
    · intro x hx
      obtain ⟨hxo, hxi⟩ := (mem_delFromLists_padres i x o (hnl o ho).1).mp hx
      obtain ⟨b, hb, rfl⟩ := hpre.1 x hxo
      exact ⟨delFromLists i b, (mem_deletePerson s i p hp _).mpr ⟨b, hb, rfl, hxi⟩,
        delFromLists_id i b⟩
    · intro x hx
      obtain ⟨hxo, hxi⟩ := (mem_delFromLists_hijos i x o (hnl o ho).2).mp hx
      obtain ⟨b, hb, rfl⟩ := hpre.2 x hxo
      exact ⟨delFromLists i b, (mem_deletePerson s i p hp _).mpr ⟨b, hb, rfl, hxi⟩,
        delFromLists_id i b⟩

theorem deletePerson_map_id_aux (i : Int) :
    ∀ s : Store, ((s.map (delFromLists i)).filter (fun q => q.id ≠ i)).map Person.id =
      (s.map Person.id).filter (fun x => x ≠ i) := by
  intro s
  induction s with
  | nil => rfl
  | cons q t ih =>
    simp only [List.map_cons]
    by_cases hq : q.id = i
    · have h1 : (decide ((delFromLists i q).id ≠ i)) = false := by
        rw [delFromLists_id]
        simpa using hq
      have h2 : (decide (q.id ≠ i)) = false := by simpa using hq
      rw [List.filter_cons, List.filter_cons, h1, h2]
      simpa using ih
    · have h1 : (decide ((delFromLists i q).id ≠ i)) = true := by
        rw [delFromLists_id]
        simpa using hq
      have h2 : (decide (q.id ≠ i)) = true := by simpa using hq
      rw [List.filter_cons, List.filter_cons, h1, h2]
      simp only [if_pos, List.map_cons, delFromLists_id]
      rw [ih]

theorem deletePerson_uniqueIds (s : Store) (i : Int) (hu : UniqueIds s) :
    UniqueIds (deletePerson s i).1 := by
  cases hp : getPerson s i with
  | none =>
    unfold deletePerson
    rw [hp]
    exact hu
  | some p =>
    rw [deletePerson_result s i p hp]
    unfold UniqueIds
    rw [deletePerson_map_id_aux]
    exact List.Nodup.filter _ hu

theorem deletePerson_nodupLists (s : Store) (i : Int) (hnl : NodupLists s) :
    NodupLists (deletePerson s i).1 := by
  cases hp : getPerson s i with
  | none =>
    unfold deletePerson
    rw [hp]
    exact hnl
  | some p =>
    intro a' ha'
    obtain ⟨o, ho, rfl, _⟩ := (mem_deletePerson s i p hp a').mp ha'
    have hpre := hnl o ho
    constructor
    · unfold delFromLists
      rw [delChildRef_padres]
      exact delParentRef_padres_nodup i o hpre.1
    · exact delChildRef_hijos_nodup i _ (by rw [delParentRef_hijos]; exact hpre.2)

/-! ## Invariant preservation by `update_person` -/

/-- The `padres` branch as actually guarded in `update_person`. -/
def optReplacePadres (s' : Store) (i : Int) (pa : Option (Option (List Int))) : Store :=
  match pa with
  | some (some newP) => replacePadres s' i newP
  | _ => s'

/-- The `hijos` branch as actually guarded in `update_person`. -/
def optReplaceHijos (s' : Store) (i : Int) (hi : Option (Option (List Int))) : Store :=
  match hi with
  | some (some newH) => replaceHijos s' i newH
  | _ => s'

theorem updatePerson_result (s : Store) (i : Int)
    (nb fe de : Option (Option String)) (pa hi : Option (Option (List Int)))
    (p : Person) (hg : getPerson s i = some p) :
    updatePerson s i nb fe de pa hi =
      (optReplaceHijos (optReplacePadres (modifyFirst i (scalarF nb fe de) s) i pa) i hi,
        true) := by
  unfold updatePerson
  rw [hg]
  rcases pa with _ | (_ | L) <;> rcases hi with _ | (_ | L2) <;> rfl

theorem optReplacePadres_inv (s' : Store) (i : Int) (pa : Option (Option (List Int)))
    (hu : UniqueIds s') (h1 : BidirConsistent s') (h2 : NoDangling s') (hnl : NodupLists s')
    (hid : HasId s' i)
    (hv : ∀ L, pa = some (some L) → ValidArg s' L) :
    UniqueIds (optReplacePadres s' i pa) ∧ BidirConsistent (optReplacePadres s' i pa) ∧
    NoDangling (optReplacePadres s' i pa) ∧ NodupLists (optReplacePadres s' i pa) ∧
    (∀ j, HasId (optReplacePadres s' i pa) j ↔ HasId s' j) := by
  rcases pa with _ | pa2
  · exact ⟨hu, h1, h2, hnl, fun j => Iff.rfl⟩
  · rcases pa2 with _ | L
    · exact ⟨hu, h1, h2, hnl, fun j => Iff.rfl⟩
    · have hvL := hv L rfl
      exact ⟨replacePadres_uniqueIds s' i L hu,
        replacePadres_bidir s' i L hu h1 hnl hvL.2,
        replacePadres_noDangling s' i L hu h2 hnl hid hvL.1 hvL.2,
        replacePadres_nodupLists s' i L hu hnl hvL.2,
        fun j => replacePadres_hasId s' i L j⟩

theorem optReplaceHijos_inv (s' : Store) (i : Int) (hi : Option (Option (List Int)))
    (hu : UniqueIds s') (h1 : BidirConsistent s') (h2 : NoDangling s') (hnl : NodupLists s')
    (hid : HasId s' i)
    (hv : ∀ L, hi = some (some L) → ValidArg s' L) :
    UniqueIds (optReplaceHijos s' i hi) ∧ BidirConsistent (optReplaceHijos s' i hi) ∧
    NoDangling (optReplaceHijos s' i hi) ∧ NodupLists (optReplaceHijos s' i hi) := by
  rcases hi with _ | hi2
  · exact ⟨hu, h1, h2, hnl⟩
  · rcases hi2 with _ | L
    · exact ⟨hu, h1, h2, hnl⟩
    · have hvL := hv L rfl
      exact ⟨replaceHijos_uniqueIds s' i L hu,
        replaceHijos_bidir s' i L hu h1 hnl hvL.2,
        replaceHijos_noDangling s' i L hu h2 hnl hid hvL.1 hvL.2,
        replaceHijos_nodupLists s' i L hu hnl hvL.2⟩

theorem updatePerson_inv (s : Store) (i : Int)
    (nb fe de : Option (Option String)) (pa hi : Option (Option (List Int)))
    (hu : UniqueIds s) (h1 : BidirConsistent s) (h2 : NoDangling s) (hnl : NodupLists s)
    (hpa : ∀ L, pa = some (some L) → ValidArg s L)
    (hhi : ∀ L, hi = some (some L) → ValidArg s L) :
    UniqueIds (updatePerson s i nb fe de pa hi).1 ∧
    BidirConsistent (updatePerson s i nb fe de pa hi).1 ∧
    NoDangling (updatePerson s i nb fe de pa hi).1 ∧
    NodupLists (updatePerson s i nb fe de pa hi).1 := by
  cases hg : getPerson s i with
  | none =>
    unfold updatePerson
    rw [hg]
    exact ⟨hu, h1, h2, hnl⟩
  | some p =>
    rw [updatePerson_result s i nb fe de pa hi p hg]
    have hs1h : ∀ j, HasId (modifyFirst i (scalarF nb fe de) s) j ↔ HasId s j :=
      fun j => hasId_modifyFirst (scalarF_pres_id nb fe de) s
    have hid : HasId s i := ⟨p, get_mem hg, get_some_id hg⟩
    have hA := optReplacePadres_inv (modifyFirst i (scalarF nb fe de) s) i pa
      (scalar_stage_uniqueIds s i nb fe de hu)
      (scalar_stage_bidir s i nb fe de h1)
      (scalar_stage_noDangling s i nb fe de h2)
      (scalar_stage_nodupLists s i nb fe de hnl)
      ((hs1h i).mpr hid)
      (fun L hL => ⟨fun x hx => (hs1h x).mpr ((hpa L hL).1 x hx), (hpa L hL).2⟩)
    exact optReplaceHijos_inv (optReplacePadres (modifyFirst i (scalarF nb fe de) s) i pa)
      i hi hA.1 hA.2.1 hA.2.2.1 hA.2.2.2.1
      ((hA.2.2.2.2 i).mpr ((hs1h i).mpr hid))
      (fun L hL => ⟨fun x hx =>
        (hA.2.2.2.2 x).mpr ((hs1h x).mpr ((hhi L hL).1 x hx)), (hhi L hL).2⟩)

theorem updatePerson_padres_only (s : Store) (i : Int) (newP : List Int) (p : Person)
    (hg : getPerson s i = some p) :
    updatePerson s i none none none (some (some newP)) none = (replacePadres s i newP, true) := by
  rw [updatePerson_result s i none none none (some (some newP)) none p hg]
  have hscalar : modifyFirst i (scalarF none none none) s = s :=
    modifyFirst_id_fun (fun r => rfl) s
  rw [hscalar]
  rfl

theorem updatePerson_hijos_only (s : Store) (i : Int) (newH : List Int) (p : Person)
    (hg : getPerson s i = some p) :
    updatePerson s i none none none none (some (some newH)) = (replaceHijos s i newH, true) := by
  rw [updatePerson_result s i none none none none (some (some newH)) p hg]
  have hscalar : modifyFirst i (scalarF none none none) s = s :=
    modifyFirst_id_fun (fun r => rfl) s
  rw [hscalar]
  rfl

/-- C1 (amended): on a store with unique record ids, duplicate-free
relationship lists and both invariants I1 and I2, every mutating
operation preserves bidirectional consistency provided the relationship
lists handed to `add_person` and `update_person` name only ids present
in the store and contain no duplicates. -/
theorem c1_theorem (s : Store) (i : Int) (name dob desc : String)
    (parents children : Option (List Int))
    (nb fe de : Option (Option String)) (pa hi : Option (Option (List Int)))
    (hu : UniqueIds s) (h1 : BidirConsistent s) (h2 : NoDangling s) (hnl : NodupLists s)
    (hP : ValidArg s (parents.getD [])) (hC : ValidArg s (children.getD []))
    (hpa : ∀ L, pa = some (some L) → ValidArg s L)
    (hhi : ∀ L, hi = some (some L) → ValidArg s L) :
    BidirConsistent (addPerson s name dob desc parents children).1 ∧
    BidirConsistent (updatePerson s i nb fe de pa hi).1 ∧
    BidirConsistent (deletePerson s i).1 :=
  ⟨addPerson_bidir s name dob desc parents children hu h1 h2 hP hC,
   (updatePerson_inv s i nb fe de pa hi hu h1 h2 hnl hpa hhi).2.1,
   deletePerson_bidir s i h1 hnl⟩

/-- C1 witness: the three operations on a clean one-record store with
valid arguments. -/
theorem c1_witness :
    BidirConsistent [mkPerson 1 [] []] ∧
    BidirConsistent (addPerson [mkPerson 1 [] []] "B" "" "" (some [1]) (some [])).1 ∧
    BidirConsistent (updatePerson [mkPerson 1 [] []] 1 none none none
      (some (some [1])) (some (some []))).1 ∧
    BidirConsistent (deletePerson [mkPerson 1 [] []] 1).1 := by
  have h := c1_theorem [mkPerson 1 [] []] 1 "B" "" "" (some [1]) (some []) none none none
    (some (some [1])) (some (some []))
    (by decide) (by decide) (by decide) (by decide) (by decide) (by decide)
    (by rintro L hL; simp only [Option.some.injEq] at hL; subst hL; decide)
    (by rintro L hL; simp only [Option.some.injEq] at hL; subst hL; decide)
  exact ⟨by decide, h.1, h.2.1, h.2.2⟩

/-- C2 (amended): on a store with unique record ids, duplicate-free
relationship lists and both invariants I1 and I2, every mutating
operation preserves the no-dangling-references invariant provided the
relationship lists handed to `add_person` and `update_person` name only
ids present in the store and contain no duplicates; relationship ids
that do not exist are kept verbatim in the record's own list, so they
are excluded by hypothesis rather than tolerated as the claim stated. -/
theorem c2_theorem (s : Store) (i : Int) (name dob desc : String)
    (parents children : Option (List Int))
    (nb fe de : Option (Option String)) (pa hi : Option (Option (List Int)))
    (hu : UniqueIds s) (h1 : BidirConsistent s) (h2 : NoDangling s) (hnl : NodupLists s)
    (hP : ValidArg s (parents.getD [])) (hC : ValidArg s (children.getD []))
    (hpa : ∀ L, pa = some (some L) → ValidArg s L)
    (hhi : ∀ L, hi = some (some L) → ValidArg s L) :
    NoDangling (addPerson s name dob desc parents children).1 ∧
    NoDangling (updatePerson s i nb fe de pa hi).1 ∧
    NoDangling (deletePerson s i).1 :=
  ⟨addPerson_noDangling s name dob desc parents children hu h2 hP hC,
   (updatePerson_inv s i nb fe de pa hi hu h1 h2 hnl hpa hhi).2.2.1,
   deletePerson_noDangling s i h2 hnl⟩

/-- C2 witness: the three operations on a clean one-record store with
valid arguments. -/
theorem c2_witness :
    NoDangling [mkPerson 1 [] []] ∧
    NoDangling (addPerson [mkPerson 1 [] []] "B" "" "" (some [1]) (some [])).1 ∧
    NoDangling (updatePerson [mkPerson 1 [] []] 1 none none none
      (some (some [1])) (some (some []))).1 ∧
    NoDangling (deletePerson [mkPerson 1 [] []] 1).1 := by
  have h := c2_theorem [mkPerson 1 [] []] 1 "B" "" "" (some [1]) (some []) none none none
    (some (some [1])) (some (some []))
    (by decide) (by decide) (by decide) (by decide) (by decide) (by decide)
    (by rintro L hL; simp only [Option.some.injEq] at hL; subst hL; decide)
    (by rintro L hL; simp only [Option.some.injEq] at hL; subst hL; decide)
  exact ⟨by decide, h.1, h.2.1, h.2.2⟩

/-- C4 (amended): full-set replace semantics of `update_person` hold on
stores with duplicate-free relationship lists, for
duplicate-free supplied sets: the record's list becomes exactly the
supplied list, every formerly linked id not kept loses the reciprocal
back-reference, and every newly linked id present in the store carries
the back-reference afterwards — symmetrically for `padres` and `hijos`;
with a duplicated reciprocal entry only the first occurrence would be
removed. -/
theorem c4_theorem (s : Store) (i : Int) (p : Person) (newP newH : List Int)
    (hnl : NodupLists s) (hp : getPerson s i = some p)
    (hnewP : newP.Nodup) (hnewH : newH.Nodup) :
    ((updatePerson s i none none none (some (some newP)) none).2 = true ∧
     padresOf (updatePerson s i none none none (some (some newP)) none).1 i = newP ∧
     (∀ o ∈ p.padres, o ∉ newP →
        i ∉ hijosOf (updatePerson s i none none none (some (some newP)) none).1 o) ∧
     (∀ q ∈ newP, HasId s q →
        i ∈ hijosOf (updatePerson s i none none none (some (some newP)) none).1 q)) ∧
    ((updatePerson s i none none none none (some (some newH))).2 = true ∧
     hijosOf (updatePerson s i none none none none (some (some newH))).1 i = newH ∧
     (∀ o ∈ p.hijos, o ∉ newH →
        i ∉ padresOf (updatePerson s i none none none none (some (some newH))).1 o) ∧
     (∀ q ∈ newH, HasId s q →
        i ∈ padresOf (updatePerson s i none none none none (some (some newH))).1 q)) := by
  have holdP := padresOf_nodup s i hnl
  have holdH := hijosOf_nodup s i hnl
  have hresP := updatePerson_padres_only s i newP p hp
  have hresH := updatePerson_hijos_only s i newH p hp
  have hpadeq : padresOf s i = p.padres := by
    unfold padresOf
    rw [hp]
    rfl
  have hhijeq : hijosOf s i = p.hijos := by
    unfold hijosOf
    rw [hp]
    rfl
  constructor
  · refine ⟨by rw [hresP], ?_, ?_, ?_⟩
    · rw [hresP]
      exact padresOf_replacePadres_self s i newP p holdP hnewP hp
    · intro o ho honew
      rw [hresP]
      cases hg2 : getPerson s o with
      | none =>
        unfold hijosOf
        rw [getPerson_replacePadres_none s i newP o holdP hnewP hg2]
        simp
      | some ro =>
        intro hmem
        rcases (mem_hijosOf_replacePadres s i newP o i ro holdP hnewP hg2
            (hnl ro (get_mem hg2)).2).mp hmem with ⟨_, hnc⟩ | ⟨_, hc⟩
        · exact hnc ⟨rfl, hpadeq ▸ ho, honew⟩
        · exact honew hc
    · intro q hq hhas
      rw [hresP]
      obtain ⟨rq, hgq⟩ := hasId_iff_get.mp hhas
      exact (mem_hijosOf_replacePadres s i newP q i rq holdP hnewP hgq
        (hnl rq (get_mem hgq)).2).mpr (Or.inr ⟨rfl, hq⟩)
  · refine ⟨by rw [hresH], ?_, ?_, ?_⟩
    · rw [hresH]
      exact hijosOf_replaceHijos_self s i newH p holdH hnewH hp
    · intro o ho honew
      rw [hresH]
      cases hg2 : getPerson s o with
      | none =>
        unfold padresOf
        rw [getPerson_replaceHijos_none s i newH o holdH hnewH hg2]
        simp
      | some ro =>
        intro hmem
        rcases (mem_padresOf_replaceHijos s i newH o i ro holdH hnewH hg2
            (hnl ro (get_mem hg2)).1).mp hmem with ⟨_, hnc⟩ | ⟨_, hc⟩
        · exact hnc ⟨rfl, hhijeq ▸ ho, honew⟩
        · exact honew hc
    · intro q hq hhas
      rw [hresH]
      obtain ⟨rq, hgq⟩ := hasId_iff_get.mp hhas
      exact (mem_padresOf_replaceHijos s i newH q i rq holdH hnewH hgq
        (hnl rq (get_mem hgq)).1).mpr (Or.inr ⟨rfl, hq⟩)

/-- C4 witness: `update_person(2, padres=[])` on the clean chain store
empties record 2's `padres` and removes the back-reference from the
former parent 1 (property P5). -/
theorem c4_witness :
    (updatePerson [mkPerson 1 [] [2], mkPerson 2 [1] []] 2 none none none
      (some (some [])) none).2 = true ∧
    padresOf (updatePerson [mkPerson 1 [] [2], mkPerson 2 [1] []] 2 none none none
      (some (some [])) none).1 2 = [] ∧
    2 ∉ hijosOf (updatePerson [mkPerson 1 [] [2], mkPerson 2 [1] []] 2 none none none
      (some (some [])) none).1 1 := by
  have h := c4_theorem [mkPerson 1 [] [2], mkPerson 2 [1] []] 2 (mkPerson 2 [1] []) [] []
    (by decide) (by decide) (by decide) (by decide)
  exact ⟨h.1.1, h.1.2.1, h.1.2.2.1 1 (by decide) (by decide)⟩
